import Mathlib

/-!
# Verification development for `src/main.cc` (bitcoinjs-server native module)

The four exported functions of `main.cc` are embedded as Lean functions:

* `base58_encode` and `base58_decode`, the base-58 codec over OpenSSL bignums;
* `pubkey_to_address256`, the versioned hash with its checksum;
* `FormatHashBlocks` and `sha256_midstate`, the SHA-256 padding and the
  one-block partial hash.

Conventions of the embedding.

* A byte (`unsigned char`) is a `Fin 256`; a buffer is a `List (Fin 256)`.
* A JavaScript string is the list of its characters.  `base58_decode` reads it
  through a `char*`, so the scan ends at the first NUL character or at the end
  of the list, whichever comes first.
* An OpenSSL `BIGNUM` holding a non-negative value is a `Nat`; `BN_bin2bn`,
  `BN_bn2bin`, `BN_num_bytes`, `BN_div`, `BN_mul`, `BN_add`, `BN_cmp` are
  modelled by their documented meaning on such values.  The allocation
  failures these calls can report are not modelled.
* `unsigned int` arithmetic is arithmetic on `Nat` reduced modulo `2 ^ 32`.
* The scratch array `str` of `base58_encode` is the list of the characters
  written so far (`str[0..i)`) inside an array of `STR_CAPACITY` characters
  (`new char[100]`).  A store at an index outside the array is undefined
  behaviour: the embedded function then has no result (`none`).
* `FormatHashBlocks` receives a bare pointer, so it works on a flat memory
  `Nat → Fin 256` indexed from that pointer.  `sha256_midstate` owns the
  allocation: `malloc` is taken to succeed, its working buffer has
  `midstateReserved` bytes, what `malloc` leaves in it is a parameter, and a
  store of the padding outside it is undefined behaviour, for which the
  embedded function has no result (`none`).
* The OpenSSL hash primitives (`SHA256`, `RIPEMD160`, `SHA256_Init`,
  `SHA256_Transform`) are parameters of the functions that call them, so the
  theorems hold for any implementation of them; the namespace `OpenSSL` holds
  executable models of SHA-256 and RIPEMD-160, checked against published test
  vectors, at which the functions are evaluated.
-/

namespace Bitcoinjs

/-! ## Constants -/

/-- The table `BASE58_ALPHABET` (main.cc line 81) as its 58 characters. -/
def BASE58_ALPHABET : List Char :=
  "123456789ABCDEFGHJKLMNPQRSTUVWXYZabcdefghijkmnopqrstuvwxyz".toList

/-- The NUL character, terminator of a C string. -/
def NUL : Char := Char.ofNat 0

/-- Capacity of the scratch array `str` allocated by `base58_encode`
(`new char[100]`, main.cc line 114). -/
def STR_CAPACITY : Nat := 100

/-- The value of `unsigned int` arithmetic: reduction modulo `2 ^ 32`. -/
def u32 (n : Nat) : Nat := n % 2 ^ 32

/-- Conversion of an integer to `unsigned char`. -/
def toByte (n : Nat) : Fin 256 := ⟨n % 256, Nat.mod_lt n (by decide)⟩

/-! ## C library and OpenSSL bignum helpers -/

/-- The read `BASE58_ALPHABET[c]`; index 58 is the terminator of the literal. -/
def alphabetAt (c : Nat) : Char := BASE58_ALPHABET.getD c NUL

/-- The C library `isspace` in the "C" locale: space, `\t`, `\n`, `\v`, `\f`, `\r`. -/
def isspace (c : Char) : Bool :=
  c.toNat = 32 || (9 ≤ c.toNat && c.toNat ≤ 13)

/-- Scan of `strchr` from offset `k`: the offset of the first occurrence of `c`.
As in C, searching for NUL finds the terminator. -/
def strchrFrom : List Char → Char → Nat → Option Nat
  | [], c, k => if c = NUL then some k else none
  | x :: rest, c, k => if x = c then some k else strchrFrom rest c (k + 1)

/-- The C library `strchr(s, c)`, as the offset `p1 - s` of the result, or `none`
for a NULL result. -/
def strchr (s : List Char) (c : Char) : Option Nat := strchrFrom s c 0

/-- The character `*p` a `char*` points at: the head of the remaining
characters, NUL once they are exhausted. -/
def deref (p : List Char) : Char := p.headD NUL

/-- The loop `while (isspace(*p)) p++` (main.cc lines 191-192 and 198-199). -/
def skipSpace : List Char → List Char
  | [] => []
  | c :: rest => if isspace c then skipSpace rest else c :: rest

/-- OpenSSL `BN_bin2bn`: the big-endian unsigned value of a buffer. -/
def BN_bin2bn (buf : List (Fin 256)) : Nat :=
  buf.foldl (fun bn x => bn * 256 + x.val) 0

/-- Worker of `BN_bn2bin`: pushes the base-256 digits of `bn`, least
significant first, in front of `acc`. -/
def bn2binLoop : Nat → Nat → List (Fin 256) → List (Fin 256)
  | 0, _, acc => acc
  | fuel + 1, bn, acc =>
    if bn = 0 then acc else bn2binLoop fuel (bn / 256) (toByte bn :: acc)

/-- OpenSSL `BN_bn2bin`: the big-endian bytes of the magnitude, without leading
zero byte (no byte at all for 0). -/
def BN_bn2bin (bn : Nat) : List (Fin 256) := bn2binLoop bn bn []

/-- Worker of `BN_num_bytes`: counts the base-256 digits of `bn`. -/
def numBytesLoop : Nat → Nat → Nat → Nat
  | 0, _, n => n
  | fuel + 1, bn, n => if bn = 0 then n else numBytesLoop fuel (bn / 256) (n + 1)

/-- OpenSSL `BN_num_bytes`: the number of bytes `BN_bn2bin` writes. -/
def BN_num_bytes (bn : Nat) : Nat := numBytesLoop bn bn 0

/-! ## base58_encode (main.cc lines 84-163) -/

/-- The store `str[i] = c; i++` (main.cc lines 128-129 and 137-138) into the
array of `STR_CAPACITY` characters, `i` being the number of characters written
so far: `none` when the index `i` is outside the array. -/
def strPut (str : List Char) (c : Char) : Option (List Char) :=
  if str.length < STR_CAPACITY then some (str ++ [c]) else none

/-- The division loop, main.cc lines 119-130: while `bn > 0`, divide by 58 and
store the symbol of the remainder in `str`.  The first argument bounds the
number of iterations; `base58_encode` passes `bn`, which is always enough. -/
def divLoop : Nat → Nat → List Char → Option (List Char)
  | 0, _, str => some str
  | fuel + 1, bn, str =>
    if bn > 0 then (strPut str (alphabetAt (bn % 58))).bind (divLoop fuel (bn / 58))
    else some str

/-- The leading-zero loop, main.cc lines 133-139: one `BASE58_ALPHABET[0]` is
stored for every zero byte at the start of the input, up to the first non-zero
byte. -/
def zerosLoop : List (Fin 256) → List Char → Option (List Char)
  | [], str => some str
  | x :: rest, str =>
    if x ≠ 0 then some str else (strPut str (alphabetAt 0)).bind (zerosLoop rest)

/-- The in-place reversal, main.cc lines 145-152: `n` further iterations of the
swap loop starting at index `j`, on a string of `i` characters. -/
def swapLoop (i : Nat) : Nat → Nat → List Char → List Char
  | 0, _, str => str
  | n + 1, j, str =>
    let j2 := i - 1 - j
    let tmp := str.getD j NUL
    let str1 := str.set j (str.getD j2 NUL)
    swapLoop i n (j + 1) (str1.set j2 tmp)

/-- The function `base58_encode`: the characters of the returned string, or
`none` when a store leaves the array `str`.  The terminator of line 142 is
stored at index `i`, which must be inside the array as well. -/
def base58_encode (buf : List (Fin 256)) : Option (List Char) :=
  let bn := BN_bin2bn buf
  (divLoop bn bn []).bind fun str =>
    (zerosLoop buf str).bind fun str =>
      let i := str.length
      if i < STR_CAPACITY then
        let numSwaps := i / 2
        some (swapLoop i numSwaps 0 str)
      else none

/-! ## base58_decode (main.cc lines 166-238) -/

/-- The conversion loop, main.cc lines 195-209, from the position `p` with the
accumulator `bn`.  The result is `none` where the source returns
`VException("Error")`, and the final accumulator otherwise. -/
def scanLoop : List Char → Nat → Option Nat
  | [], bn => some bn
  | c :: rest, bn =>
    if c = NUL then some bn
    else
      match strchr BASE58_ALPHABET c with
      | none => if deref (skipSpace (c :: rest)) ≠ NUL then none else some bn
      | some k => scanLoop rest (bn * 58 + k)

/-- The loop of main.cc lines 222-223: the number of leading
`BASE58_ALPHABET[0]` characters at `psz`. -/
def countZeroSymbols : List Char → Nat
  | [] => 0
  | c :: rest => if c = alphabetAt 0 then countZeroSymbols rest + 1 else 0

/-- The length `tmpLen` after the statement of main.cc lines 217-218
("Trim off sign byte if present"), for the bytes `tmp` of length `tmpLen`. -/
def trimLen (tmp : List (Fin 256)) (tmpLen : Nat) : Nat :=
  if tmpLen ≥ 2 ∧ tmp.getD (tmpLen - 1) 0 = 0 ∧ (tmp.getD (tmpLen - 2) 0).val ≥ 0x80
  then tmpLen - 1 else tmpLen

/-- The function `base58_decode`: `none` for the exception, otherwise the
bytes of the returned buffer. -/
def base58_decode (s : List Char) : Option (List (Fin 256)) :=
  let psz := skipSpace s
  match scanLoop psz 0 with
  | none => none
  | some bn =>
    let tmpLen := BN_num_bytes bn
    let tmp := BN_bn2bin bn
    let tmpLen := trimLen tmp tmpLen
    let nLeadingZeros := countZeroSymbols psz
    some (List.replicate nLeadingZeros 0 ++ tmp.take tmpLen)

/-! ## pubkey_to_address256 (main.cc lines 27-78) -/

/-- The function `pubkey_to_address256`, for the one-shot hash functions
`SHA256` (Init, Update, Final of main.cc lines 44-47 and 64-67) and `RIPEMD160`
(lines 51-54) of OpenSSL. -/
def pubkey_to_address256 (SHA256 RIPEMD160 : List (Fin 256) → List (Fin 256))
    (pub_data : List (Fin 256)) : List (Fin 256) :=
  let hash1 := SHA256 pub_data
  let hash2 := RIPEMD160 (hash1.take 32)
  let address256 := [(0 : Fin 256)] ++ hash2.take 20
  let hash3 := SHA256 (address256.take (1 + 20))
  let address256 := address256.take (1 + 20) ++ hash3.take 4
  address256.take (1 + 20 + 4)

/-! ## FormatHashBlocks and sha256_midstate (main.cc lines 241-292) -/

/-- The C library `memset(p + off, v, n)` on a flat memory. -/
def memset (mem : Nat → Fin 256) (off : Nat) (v : Fin 256) (n : Nat) : Nat → Fin 256 :=
  fun i => if off ≤ i ∧ i < off + n then v else mem i

/-- The store `p[idx] = v` on a flat memory. -/
def store (mem : Nat → Fin 256) (idx : Nat) (v : Fin 256) : Nat → Fin 256 :=
  fun i => if i = idx then v else mem i

/-- The function `FormatHashBlocks(pbuffer, len)`: the returned block count and
the memory at `pbuffer` after the call.  `len` is an `unsigned int`; `pend` is
the offset of the pointer `pend` from `pdata`, and the count given to `memset`
is the `unsigned int` difference `64 * blocks - len`.  Offsets are natural
numbers, so the stores `pend[-k]` are represented as long as `pend >= 4`, that
is unless `64 * blocks` wraps to 0 (`len + 72 >= 2 ^ 32`). -/
def FormatHashBlocks (pbuffer : Nat → Fin 256) (len : Nat) : Nat × (Nat → Fin 256) :=
  let blocks := u32 (1 + u32 (len + 8) / 64)
  let pend := u32 (64 * blocks)
  let pdata := memset pbuffer len 0 (u32 (u32 (64 * blocks) + 2 ^ 32 - len))
  let pdata := store pdata len 0x80
  let bits := u32 (len * 8)
  let pdata := store pdata (pend - 1) (toByte ((bits >>> 0) &&& 0xff))
  let pdata := store pdata (pend - 2) (toByte ((bits >>> 8) &&& 0xff))
  let pdata := store pdata (pend - 3) (toByte ((bits >>> 16) &&& 0xff))
  let pdata := store pdata (pend - 4) (toByte ((bits >>> 24) &&& 0xff))
  (blocks, pdata)

/-- The bytes `[0, n)` of a flat memory. -/
def readBytes (mem : Nat → Fin 256) (n : Nat) : List (Fin 256) :=
  (List.range n).map mem

/-- The number of bytes `sha256_midstate` reserves for its working buffer
(`malloc(blk_len + 64)`, main.cc line 271). -/
def midstateReserved (blk_len : Nat) : Nat := u32 (blk_len + 64)

/-- Whether every store of `FormatHashBlocks(pbuffer, len)` falls inside an
allocation of `size` bytes at `pbuffer`: the range of the `memset`, the byte at
`len` and the four bytes `pend[-4]` to `pend[-1]`. -/
def paddingInBounds (size len : Nat) : Bool :=
  let blocks := u32 (1 + u32 (len + 8) / 64)
  let pend := u32 (64 * blocks)
  let count := u32 (u32 (64 * blocks) + 2 ^ 32 - len)
  decide (len + count ≤ size) && decide (len < size) && decide (4 ≤ pend) &&
    decide (pend ≤ size)

/-- The function `sha256_midstate`.  `SHA256_Init` is the context after
`SHA256_Init`, `SHA256_Transform c block` the context after one compression of
the 64 bytes `block`, `h_bytes c` the 32 bytes of memory that hold `c.h`, and
`heap` the content of the freshly allocated working buffer.  The result is
`none` when the `memcpy` of the input, a store of `FormatHashBlocks` or the 64
bytes read by `SHA256_Transform` leave the `midstateReserved blk_len` bytes
allocated at main.cc line 271. -/
def sha256_midstate {Ctx : Type} (SHA256_Init : Ctx)
    (SHA256_Transform : Ctx → List (Fin 256) → Ctx) (h_bytes : Ctx → List (Fin 256))
    (heap : Nat → Fin 256) (blk : List (Fin 256)) : Option (List (Fin 256)) :=
  let blk_len := u32 blk.length
  let size := midstateReserved blk_len
  let blk_data : Nat → Fin 256 := fun i => if i < blk_len then blk.getD i 0 else heap i
  if blk_len ≤ size ∧ paddingInBounds size blk_len = true ∧ 64 ≤ size then
    let blk_data := (FormatHashBlocks blk_data blk_len).2
    let c := SHA256_Transform SHA256_Init (readBytes blk_data 64)
    some ((h_bytes c).take 32)
  else none

/-! ## Reference models of the OpenSSL hash primitives

`pubkey_to_address256` and `sha256_midstate` take the hash primitives as
parameters.  The definitions below are executable models of the primitives
themselves, SHA-256 after FIPS 180-4 and RIPEMD-160 after its defining report,
used to evaluate the functions on concrete inputs. -/

namespace OpenSSL

/-- A sum or shift reduced to a 32-bit word. -/
def w32 (n : Nat) : Nat := n % 4294967296

/-- Rotation of a 32-bit word to the right. -/
def rotr (x n : Nat) : Nat := w32 ((x >>> n) ||| (x <<< (32 - n)))

/-- Rotation of a 32-bit word to the left. -/
def rotl (x n : Nat) : Nat := w32 (x <<< n) ||| (x >>> (32 - n))

/-- Bitwise complement of a 32-bit word. -/
def bnot32 (x : Nat) : Nat := 4294967295 - x

/-- The 64 round constants of SHA-256. -/
def K256 : List Nat := [
  1116352408, 1899447441, 3049323471, 3921009573, 961987163, 1508970993, 2453635748,
  2870763221, 3624381080, 310598401, 607225278, 1426881987, 1925078388, 2162078206,
  2614888103, 3248222580, 3835390401, 4022224774, 264347078, 604807628, 770255983,
  1249150122, 1555081692, 1996064986, 2554220882, 2821834349, 2952996808, 3210313671,
  3336571891, 3584528711, 113926993, 338241895, 666307205, 773529912, 1294757372,
  1396182291, 1695183700, 1986661051, 2177026350, 2456956037, 2730485921, 2820302411,
  3259730800, 3345764771, 3516065817, 3600352804, 4094571909, 275423344, 430227734,
  506948616, 659060556, 883997877, 958139571, 1322822218, 1537002063, 1747873779,
  1955562222, 2024104815, 2227730452, 2361852424, 2428436474, 2756734187, 3204031479,
  3329325298]

/-- The chaining value `c.h` left by `SHA256_Init`. -/
def SHA256_Init : List Nat :=
  [1779033703, 3144134277, 1013904242, 2773480762, 1359893119, 2600822924, 528734635,
    1541459225]

/-- The 32-bit words of a byte sequence, four bytes each, big-endian. -/
def beWords : List Nat → List Nat
  | a :: b :: c :: d :: rest => (a * 16777216 + b * 65536 + c * 256 + d) :: beWords rest
  | _ => []

/-- The 32-bit words of a byte sequence, four bytes each, little-endian. -/
def leWords : List Nat → List Nat
  | a :: b :: c :: d :: rest => (a + b * 256 + c * 65536 + d * 16777216) :: leWords rest
  | _ => []

/-- The four bytes of a 32-bit word, big-endian. -/
def beBytes (x : Nat) : List Nat := [x / 16777216 % 256, x / 65536 % 256, x / 256 % 256, x % 256]

/-- The four bytes of a 32-bit word, little-endian. -/
def leBytes (x : Nat) : List Nat := [x % 256, x / 256 % 256, x / 65536 % 256, x / 16777216 % 256]

/-- The message schedule of SHA-256, most recent word first: `n` more words. -/
def extend : Nat → List Nat → List Nat
  | 0, w => w
  | n + 1, w =>
    let s0 := rotr (w.getD 14 0) 7 ^^^ rotr (w.getD 14 0) 18 ^^^ (w.getD 14 0 >>> 3)
    let s1 := rotr (w.getD 1 0) 17 ^^^ rotr (w.getD 1 0) 19 ^^^ (w.getD 1 0 >>> 10)
    extend n (w32 (s1 + w.getD 6 0 + s0 + w.getD 15 0) :: w)

/-- One round of the SHA-256 compression, for the pair of the round constant
and the schedule word. -/
def sha256Round (s : List Nat) (kw : Nat × Nat) : List Nat :=
  match s with
  | [a, b, c, d, e, f, g, h] =>
    let ch := (e &&& f) ^^^ (bnot32 e &&& g)
    let maj := (a &&& b) ^^^ (a &&& c) ^^^ (b &&& c)
    let t1 := w32 (h + (rotr e 6 ^^^ rotr e 11 ^^^ rotr e 25) + ch + kw.1 + kw.2)
    let t2 := w32 ((rotr a 2 ^^^ rotr a 13 ^^^ rotr a 22) + maj)
    [w32 (t1 + t2), a, b, c, w32 (d + t1), e, f, g]
  | _ => s

/-- The SHA-256 compression of one 64-byte block into the chaining value `h`. -/
def sha256Compress (h : List Nat) (block : List Nat) : List Nat :=
  let w := (extend 48 (beWords block).reverse).reverse
  let s := (K256.zip w).foldl sha256Round h
  List.zipWith (fun x y => w32 (x + y)) h s

/-- The function `SHA256_Transform(c, data)`: one compression of the 64 bytes at
`data` into `c.h`. -/
def SHA256_Transform (c : List Nat) (data : List (Fin 256)) : List Nat :=
  sha256Compress c (data.map Fin.val)

/-- The bytes of memory that hold `c.h` on a little-endian host. -/
def h_bytes (c : List Nat) : List (Fin 256) := (c.flatMap leBytes).map toByte

/-- The first `n` consecutive 64-byte blocks of a byte sequence. -/
def blocks64 : Nat → List Nat → List (List Nat)
  | 0, _ => []
  | n + 1, l => l.take 64 :: blocks64 n (l.drop 64)

/-- Padding shared by both hashes: the byte `0x80`, zero bytes up to 56 modulo
64; the 8 length bytes are appended by the caller. -/
def padZeros (msg : List Nat) : List Nat :=
  msg ++ [128] ++ List.replicate ((119 - msg.length % 64) % 64) 0

/-- The one-shot hash `SHA256` (Init, Update over the whole input, Final). -/
def SHA256 (msg : List (Fin 256)) : List (Fin 256) :=
  let bits := msg.length * 8
  let p := padZeros (msg.map Fin.val) ++ beBytes (bits / 4294967296) ++ beBytes bits
  (((blocks64 (p.length / 64) p).foldl sha256Compress SHA256_Init).flatMap beBytes).map toByte

end OpenSSL

namespace OpenSSL

/-- The five round functions of RIPEMD-160, selected by the step number. -/
def rmdF (j x y z : Nat) : Nat :=
  if j < 16 then x ^^^ y ^^^ z
  else if j < 32 then (x &&& y) ||| (bnot32 x &&& z)
  else if j < 48 then (x ||| bnot32 y) ^^^ z
  else if j < 64 then (x &&& z) ||| (y &&& bnot32 z)
  else x ^^^ (y ||| bnot32 z)

/-- Added constants of the left line of RIPEMD-160, one per round. -/
def rmdKL : List Nat := [0, 1518500249, 1859775393, 2400959708, 2840853838]

/-- Added constants of the right line of RIPEMD-160, one per round. -/
def rmdKR : List Nat := [1352829926, 1548603684, 1836072691, 2053994217, 0]

/-- Message word selection of the left line. -/
def rmdRL : List Nat := List.range 16 ++ [
  7, 4, 13, 1, 10, 6, 15, 3, 12, 0, 9, 5, 2, 14, 11, 8,
  3, 10, 14, 4, 9, 15, 8, 1, 2, 7, 0, 6, 13, 11, 5, 12,
  1, 9, 11, 10, 0, 8, 12, 4, 13, 3, 7, 15, 14, 5, 6, 2,
  4, 0, 5, 9, 7, 12, 2, 10, 14, 1, 3, 8, 11, 6, 15, 13]

/-- Message word selection of the right line. -/
def rmdRR : List Nat := [
  5, 14, 7, 0, 9, 2, 11, 4, 13, 6, 15, 8, 1, 10, 3, 12,
  6, 11, 3, 7, 0, 13, 5, 10, 14, 15, 8, 12, 4, 9, 1, 2,
  15, 5, 1, 3, 7, 14, 6, 9, 11, 8, 12, 2, 10, 0, 4, 13,
  8, 6, 4, 1, 3, 11, 15, 0, 5, 12, 2, 13, 9, 7, 10, 14,
  12, 15, 10, 4, 1, 5, 8, 7, 6, 2, 13, 14, 0, 3, 9, 11]

/-- Rotation amounts of the left line. -/
def rmdSL : List Nat := [
  11, 14, 15, 12, 5, 8, 7, 9, 11, 13, 14, 15, 6, 7, 9, 8,
  7, 6, 8, 13, 11, 9, 7, 15, 7, 12, 15, 9, 11, 7, 13, 12,
  11, 13, 6, 7, 14, 9, 13, 15, 14, 8, 13, 6, 5, 12, 7, 5,
  11, 12, 14, 15, 14, 15, 9, 8, 9, 14, 5, 6, 8, 6, 5, 12,
  9, 15, 5, 11, 6, 8, 13, 12, 5, 12, 13, 14, 11, 8, 5, 6]

/-- Rotation amounts of the right line. -/
def rmdSR : List Nat := [
  8, 9, 9, 11, 13, 15, 15, 5, 7, 7, 8, 11, 14, 14, 12, 6,
  9, 13, 15, 7, 12, 8, 9, 11, 7, 7, 12, 7, 6, 15, 13, 11,
  9, 7, 15, 11, 8, 6, 6, 14, 12, 13, 5, 14, 13, 13, 7, 5,
  15, 5, 8, 11, 14, 14, 6, 14, 6, 9, 12, 9, 12, 5, 15, 8,
  8, 5, 12, 9, 12, 5, 14, 6, 8, 13, 6, 5, 15, 13, 11, 11]

/-- One step of a line of RIPEMD-160 on the words `x` of the block, with the
round function value `f`, constant `k`, word index `r` and rotation `s`. -/
def rmdStep (x : List Nat) (f k r s : Nat) (st : List Nat) : List Nat :=
  match st with
  | [a, b, c, d, e] =>
    [e, w32 (rotl (w32 (a + f + x.getD r 0 + k)) s + e), b, rotl c 10, d]
  | _ => st

/-- Step `j` of the left line. -/
def rmdLeft (x : List Nat) (st : List Nat) (j : Nat) : List Nat :=
  rmdStep x (rmdF j (st.getD 1 0) (st.getD 2 0) (st.getD 3 0)) (rmdKL.getD (j / 16) 0)
    (rmdRL.getD j 0) (rmdSL.getD j 0) st

/-- Step `j` of the right line. -/
def rmdRight (x : List Nat) (st : List Nat) (j : Nat) : List Nat :=
  rmdStep x (rmdF (79 - j) (st.getD 1 0) (st.getD 2 0) (st.getD 3 0)) (rmdKR.getD (j / 16) 0)
    (rmdRR.getD j 0) (rmdSR.getD j 0) st

/-- The RIPEMD-160 compression of one 64-byte block into the chaining value. -/
def rmdCompress (h : List Nat) (block : List Nat) : List Nat :=
  let x := leWords block
  let l := (List.range 80).foldl (rmdLeft x) h
  let r := (List.range 80).foldl (rmdRight x) h
  match h, l, r with
  | [h0, h1, h2, h3, h4], [a, b, c, d, e], [a2, b2, c2, d2, e2] =>
    [w32 (h1 + c + d2), w32 (h2 + d + e2), w32 (h3 + e + a2), w32 (h4 + a + b2),
      w32 (h0 + b + c2)]
  | _, _, _ => h

/-- The one-shot hash `RIPEMD160` (Init, Update over the whole input, Final). -/
def RIPEMD160 (msg : List (Fin 256)) : List (Fin 256) :=
  let bits := msg.length * 8
  let p := padZeros (msg.map Fin.val) ++ leBytes bits ++ leBytes (bits / 4294967296)
  (((blocks64 (p.length / 64) p).foldl rmdCompress
    [1732584193, 4023233417, 2562383102, 271733878, 3285377520]).flatMap leBytes).map toByte

end OpenSSL

/-! ## The symbols written by the encoder, apart from the array

The definitions below follow the loops of `base58_encode` with an array
that is always long enough.  They are not the embedding of the function: they
name the symbols and their number, so that the lemmas can say when the stores
of `divLoop`, `zerosLoop` and `base58_encode` stay inside `str` and what the
result then is. -/

/-- The symbols the division loop appends to `str` when no store is out of
the array. -/
def divSymbols : Nat → Nat → List Char → List Char
  | 0, _, str => str
  | fuel + 1, bn, str =>
    if bn > 0 then divSymbols fuel (bn / 58) (str ++ [alphabetAt (bn % 58)])
    else str

/-- The symbols the leading-zero loop appends to `str` when no store is out of
the array. -/
def zeroSymbols : List (Fin 256) → List Char → List Char
  | [], str => str
  | x :: rest, str =>
    if x ≠ 0 then str else zeroSymbols rest (str ++ [alphabetAt 0])

/-- The number `i` of characters `base58_encode` has written to `str` when it
stores the terminator (main.cc line 142). -/
def encodeCount (buf : List (Fin 256)) : Nat :=
  let bn := BN_bin2bn buf
  (zeroSymbols buf (divSymbols bn bn [])).length

/-- The string `base58_encode` returns when no store is out of the array. -/
def encodeSymbols (buf : List (Fin 256)) : List Char :=
  let bn := BN_bin2bn buf
  let str := divSymbols bn bn []
  let str := zeroSymbols buf str
  let i := str.length
  let numSwaps := i / 2
  swapLoop i numSwaps 0 str

/-! ## Vocabulary of the specification -/

/-- The number of zero bytes at the start of a buffer. -/
def leadingZeroBytes (buf : List (Fin 256)) : Nat :=
  (buf.takeWhile (fun x => x = 0)).length

/-- The number of `'1'` characters at the start of a string. -/
def leadingOnes (s : List Char) : Nat :=
  (s.takeWhile (fun c => c = '1')).length

/-- The index of a symbol in the alphabet (0 for a character outside it). -/
def alphabetIndex (c : Char) : Nat := (strchr BASE58_ALPHABET c).getD 0

/-- The positional value of a symbol string read most significant digit first:
the sum of `alphabetIndex (digits[i]) * 58 ^ (n - 1 - i)` over its `n` symbols. -/
def positionalValue (digits : List Char) : Nat :=
  ((List.range digits.length).map
    (fun i => alphabetIndex (digits.getD i NUL) * 58 ^ (digits.length - 1 - i))).sum

/-- The value accumulated by `value = value * 58 + symbolIndex` over a string. -/
def foldValue (s : List Char) : Nat :=
  s.foldl (fun value c => value * 58 + alphabetIndex c) 0

/-- The part of a string a `char*` reader sees: the characters before the first
NUL (all of them when there is none). -/
def cString (s : List Char) : List Char := s.takeWhile (fun c => c ≠ NUL)

/-- The accepted form of an input: after its leading whitespace, zero or more
alphabet symbols followed by zero or more whitespace characters, up to the end. -/
def Base58Form (t : List Char) : Prop :=
  ∃ a w : List Char, t.dropWhile isspace = a ++ w ∧
    (∀ c ∈ a, c ∈ BASE58_ALPHABET) ∧ (∀ c ∈ w, isspace c = true)

/-- The public key of the known-vector scenario: `0x02` followed by 32 zero bytes. -/
def sampleKey : List (Fin 256) := 2 :: List.replicate 32 0

/-! ## Lemmas on `encodeSymbols` -/

theorem swapLoop_spec (i : Nat) : ∀ (n j : Nat) (str : List Char), str.length = i → 2 * (j + n) ≤ i →
    (swapLoop i n j str).length = i ∧
    ∀ t, (swapLoop i n j str)[t]? =
      if t < i ∧ ((j ≤ t ∧ t < j + n) ∨ (j ≤ i - 1 - t ∧ i - 1 - t < j + n)) then str[i - 1 - t]?
      else str[t]? := by
  intro n
  induction n with
  | zero =>
    intro j str hlen _
    refine ⟨by simpa [swapLoop] using hlen, fun t => ?_⟩
    have : ¬ (t < i ∧ ((j ≤ t ∧ t < j + 0) ∨ (j ≤ i - 1 - t ∧ i - 1 - t < j + 0))) := by omega
    simp only [swapLoop, if_neg this]
  | succ n ih =>
    intro j str hlen hn
    have hlen2 : ((str.set j (str.getD (i - 1 - j) NUL)).set (i - 1 - j) (str.getD j NUL)).length = i := by
      simp [hlen]
    obtain ⟨h1, h2⟩ := ih (j + 1) _ hlen2 (by omega)
    refine ⟨by simpa [swapLoop] using h1, fun t => ?_⟩
    simp only [swapLoop]
    rw [h2 t]
    simp only [List.getElem?_set, List.length_set, hlen, List.getD_eq_getElem?_getD]
    have hj : j < i := by omega
    have hj2 : i - 1 - j < i := by omega
    have e1 : str[j]?.getD NUL = str[j] := by
      rw [List.getElem?_eq_getElem (by omega)]; rfl
    have e2 : str[i - 1 - j]?.getD NUL = str[i - 1 - j] := by
      rw [List.getElem?_eq_getElem (by omega)]; rfl
    rw [e1, e2]
    by_cases ht : t < i
    · by_cases c1 : t = j
      · subst c1
        have : i - 1 - (i - 1 - t) = t := by omega
        split_ifs <;> first | omega | simp_all [List.getElem?_eq_getElem]
      · by_cases c2 : t = i - 1 - j
        · subst c2
          have : i - 1 - (i - 1 - j) = j := by omega
          split_ifs <;> first | omega | simp_all [List.getElem?_eq_getElem]
        · have c3 : ¬ (i - 1 - j = i - 1 - t) := by omega
          have c4 : ¬ (j = i - 1 - t) := by omega
          have c5 : ¬ (i - 1 - j = t) := by omega
          have c6 : ¬ (j = t) := by omega
          split_ifs <;> first | omega | rfl
    · have e3 : str[t]? = none := List.getElem?_eq_none (by omega)
      split_ifs <;> first | omega | simp_all

theorem swapLoop_reverse (str : List Char) :
    swapLoop str.length (str.length / 2) 0 str = str.reverse := by
  obtain ⟨_, h2⟩ := swapLoop_spec str.length (str.length / 2) 0 str rfl (by omega)
  apply List.ext_getElem?
  intro t
  rw [h2 t]
  by_cases ht : t < str.length
  · rw [List.getElem?_reverse ht]
    split_ifs with c
    · rfl
    · have : str.length - 1 - t = t := by omega
      rw [this]
  · have e1 : str[t]? = none := List.getElem?_eq_none (by omega)
    have e2 : str.reverse[t]? = none := List.getElem?_eq_none (by simp; omega)
    rw [if_neg (by omega), e1, e2]

theorem divSymbols_eq : ∀ (fuel bn : Nat) (str : List Char), bn ≤ fuel →
    divSymbols fuel bn str = str ++ (Nat.digits 58 bn).map alphabetAt := by
  intro fuel
  induction fuel with
  | zero =>
    intro bn str h
    have : bn = 0 := by omega
    subst this
    simp [divSymbols]
  | succ f ih =>
    intro bn str h
    by_cases hb : bn > 0
    · have hlt : bn / 58 ≤ f := by
        have : bn / 58 < bn := Nat.div_lt_self hb (by decide)
        omega
      rw [divSymbols, if_pos hb, ih _ _ hlt, Nat.digits_def' (by decide) hb]
      simp
    · have : bn = 0 := by omega
      subst this
      simp [divSymbols]

theorem zeroSymbols_eq : ∀ (buf : List (Fin 256)) (str : List Char),
    zeroSymbols buf str = str ++ List.replicate (leadingZeroBytes buf) '1' := by
  intro buf
  induction buf with
  | nil => intro str; simp [zeroSymbols, leadingZeroBytes]
  | cons x rest ih =>
    intro str
    by_cases hx : x = 0
    · subst hx
      have h1 : alphabetAt 0 = '1' := by decide
      simp only [zeroSymbols, ne_eq, not_true_eq_false, if_false, ih, h1]
      simp [leadingZeroBytes, List.replicate_succ]
    · simp [zeroSymbols, leadingZeroBytes, hx]

theorem encodeSymbols_eq (buf : List (Fin 256)) :
    encodeSymbols buf =
      List.replicate (leadingZeroBytes buf) '1' ++
        ((Nat.digits 58 (BN_bin2bn buf)).map alphabetAt).reverse := by
  unfold encodeSymbols
  simp only [swapLoop_reverse, divSymbols_eq _ _ _ (le_refl _), zeroSymbols_eq]
  simp

theorem strchr_alphabetAt : ∀ d, d < 58 → strchr BASE58_ALPHABET (alphabetAt d) = some d := by
  decide

theorem alphabetIndex_alphabetAt (d : Nat) (h : d < 58) : alphabetIndex (alphabetAt d) = d := by
  simp [alphabetIndex, strchr_alphabetAt d h]

theorem alphabetAt_mem : ∀ d, d < 58 → alphabetAt d ∈ BASE58_ALPHABET := by
  decide

theorem alphabetAt_ne_one (d : Nat) (h : d < 58) (h0 : d ≠ 0) : alphabetAt d ≠ '1' := by
  intro e
  have h1 := alphabetIndex_alphabetAt d h
  rw [e] at h1
  have h2 : alphabetIndex '1' = 0 := by decide
  omega

theorem map_alphabetIndex_digits (n : Nat) :
    ((Nat.digits 58 n).map alphabetAt).map alphabetIndex = Nat.digits 58 n := by
  rw [List.map_map]
  conv_rhs => rw [← List.map_id (Nat.digits 58 n)]
  apply List.map_congr_left
  intro d hd
  exact alphabetIndex_alphabetAt d (Nat.digits_lt_base (by decide) hd)

/-- The digit symbols of a value, most significant first. -/
theorem digitSymbols_head (n : Nat) :
    (((Nat.digits 58 n).map alphabetAt).reverse).head? ≠ some '1' := by
  by_cases hn : n = 0
  · subst hn; simp
  · have hne : Nat.digits 58 n ≠ [] := by
      simpa [Nat.digits_eq_nil_iff_eq_zero] using hn
    have hlast := Nat.getLast_digit_ne_zero 58 hn
    have hlt : (Nat.digits 58 n).getLast hne < 58 :=
      Nat.digits_lt_base (by decide) (List.getLast_mem hne)
    rw [List.head?_reverse, List.getLast?_map, List.getLast?_eq_getLast _ hne]
    simp only [Option.map_some', ne_eq, Option.some.injEq]
    exact alphabetAt_ne_one _ hlt hlast

theorem leadingOnes_replicate_append (k : Nat) (D : List Char) (h : D.head? ≠ some '1') :
    leadingOnes (List.replicate k '1' ++ D) = k := by
  induction k with
  | zero =>
    cases D with
    | nil => simp [leadingOnes]
    | cons c D2 =>
      have : c ≠ '1' := by simpa using h
      simp [leadingOnes, this]
  | succ k ih =>
    simp only [leadingOnes] at ih ⊢
    rw [List.replicate_succ, List.cons_append, List.takeWhile_cons_of_pos (by simp),
      List.length_cons, ih]

theorem BN_bin2bn_foldl (buf : List (Fin 256)) : ∀ acc : Nat,
    buf.foldl (fun bn x => bn * 256 + x.val) acc = acc * 256 ^ buf.length + BN_bin2bn buf := by
  induction buf with
  | nil => intro acc; simp [BN_bin2bn]
  | cons x rest ih =>
    intro acc
    simp only [BN_bin2bn, List.foldl_cons, List.length_cons] at ih ⊢
    rw [ih (acc * 256 + x.val), ih (0 * 256 + x.val)]
    ring

theorem BN_bin2bn_cons (x : Fin 256) (rest : List (Fin 256)) :
    BN_bin2bn (x :: rest) = x.val * 256 ^ rest.length + BN_bin2bn rest := by
  have := BN_bin2bn_foldl rest (0 * 256 + x.val)
  simp only [BN_bin2bn, List.foldl_cons] at this ⊢
  rw [this]; ring

theorem BN_bin2bn_eq_ofDigits (buf : List (Fin 256)) :
    BN_bin2bn buf = Nat.ofDigits 256 ((buf.map Fin.val).reverse) := by
  induction buf with
  | nil => simp [BN_bin2bn]
  | cons x rest ih =>
    rw [BN_bin2bn_cons, ih, List.map_cons, List.reverse_cons, Nat.ofDigits_append]
    simp [Nat.ofDigits_singleton]
    ring

theorem BN_bin2bn_zeros_append (k : Nat) (r : List (Fin 256)) :
    BN_bin2bn (List.replicate k 0 ++ r) = BN_bin2bn r := by
  induction k with
  | zero => simp
  | succ k ih =>
    rw [List.replicate_succ, List.cons_append, BN_bin2bn_cons, ih]
    simp

theorem leadingZeroBytes_zeros_append (k : Nat) (x : Fin 256) (rest : List (Fin 256)) (hx : x ≠ 0) :
    leadingZeroBytes (List.replicate k 0 ++ x :: rest) = k := by
  induction k with
  | zero => simp [leadingZeroBytes, hx]
  | succ k ih =>
    simp only [leadingZeroBytes] at ih ⊢
    rw [List.replicate_succ, List.cons_append, List.takeWhile_cons_of_pos (by simp),
      List.length_cons, ih]

theorem buf_split (buf : List (Fin 256)) :
    buf = List.replicate (leadingZeroBytes buf) 0 ++ buf.dropWhile (fun x => x = 0) := by
  induction buf with
  | nil => simp [leadingZeroBytes]
  | cons x rest ih =>
    by_cases hx : x = 0
    · subst hx
      simp only [leadingZeroBytes] at ih ⊢
      simp [List.replicate_succ]
      exact ih
    · simp [leadingZeroBytes, hx]

theorem bn2binLoop_eq : ∀ (fuel bn : Nat) (acc : List (Fin 256)), bn ≤ fuel →
    bn2binLoop fuel bn acc = ((Nat.digits 256 bn).map toByte).reverse ++ acc := by
  intro fuel
  induction fuel with
  | zero =>
    intro bn acc h
    have : bn = 0 := by omega
    subst this
    simp [bn2binLoop]
  | succ f ih =>
    intro bn acc h
    by_cases hb : bn = 0
    · subst hb; simp [bn2binLoop]
    · have hpos : 0 < bn := Nat.pos_of_ne_zero hb
      have hlt : bn / 256 ≤ f := by
        have : bn / 256 < bn := Nat.div_lt_self hpos (by decide)
        omega
      have hmod : toByte (bn % 256) = toByte bn := by
        simp [toByte]
      rw [bn2binLoop, if_neg hb, ih _ _ hlt, Nat.digits_def' (by decide) hpos]
      simp [hmod]

theorem BN_bn2bin_eq (bn : Nat) :
    BN_bn2bin bn = ((Nat.digits 256 bn).map toByte).reverse := by
  simp [BN_bn2bin, bn2binLoop_eq bn bn [] (le_refl _)]

theorem BN_bn2bin_bin2bn (m : List (Fin 256)) (h : m.head? ≠ some 0) :
    BN_bn2bin (BN_bin2bn m) = m := by
  rw [BN_bn2bin_eq, BN_bin2bn_eq_ofDigits, Nat.digits_ofDigits 256 (by decide)]
  · rw [List.map_reverse, List.reverse_reverse, List.map_map]
    conv_rhs => rw [← List.map_id m]
    apply List.map_congr_left
    intro x _
    apply Fin.ext
    simp [toByte, Nat.mod_eq_of_lt x.isLt]
  · intro l hl
    simp only [List.mem_reverse, List.mem_map] at hl
    obtain ⟨x, _, rfl⟩ := hl
    exact x.isLt
  · intro hne
    rw [List.getLast_reverse]
    cases m with
    | nil => simp at hne
    | cons x rest =>
      simp only [List.map_cons, List.head_cons]
      intro hx
      apply h
      simp only [List.head?_cons, Option.some.injEq]
      exact Fin.ext hx

theorem dropWhile_zero_head (buf : List (Fin 256)) :
    (buf.dropWhile (fun x => x = 0)).head? ≠ some 0 := by
  induction buf with
  | nil => simp
  | cons x rest ih =>
    by_cases hx : x = 0
    · subst hx; simpa using ih
    · simp [hx]

theorem positionalValue_eq_ofDigits (D : List Char) :
    positionalValue D = Nat.ofDigits 58 ((D.map alphabetIndex).reverse) := by
  induction D with
  | nil => simp [positionalValue]
  | cons c D2 ih =>
    simp only [positionalValue] at ih ⊢
    rw [List.length_cons, List.range_succ_eq_map, List.map_cons, List.sum_cons, List.map_map,
      List.map_cons, List.reverse_cons, Nat.ofDigits_append, Nat.ofDigits_singleton, ← ih]
    have e : (List.map ((fun i => alphabetIndex ((c :: D2).getD i NUL) * 58 ^ (D2.length + 1 - 1 - i)) ∘ Nat.succ)
          (List.range D2.length)) =
        List.map (fun i => alphabetIndex (D2.getD i NUL) * 58 ^ (D2.length - 1 - i)) (List.range D2.length) := by
      apply List.map_congr_left
      intro i hi
      have hi2 : i < D2.length := List.mem_range.mp hi
      have e2 : D2.length + 1 - 1 - (i + 1) = D2.length - 1 - i := by omega
      simp only [Function.comp_apply, Nat.succ_eq_add_one, e2, List.getD_cons_succ]
    rw [e]
    simp
    ring

theorem encode_drop (buf : List (Fin 256)) :
    (encodeSymbols buf).drop (leadingZeroBytes buf) =
      ((Nat.digits 58 (BN_bin2bn buf)).map alphabetAt).reverse := by
  rw [encodeSymbols_eq]
  simp [List.drop_append_eq_append_drop]

theorem encode_drop_index (buf : List (Fin 256)) :
    ((encodeSymbols buf).drop (leadingZeroBytes buf)).map alphabetIndex =
      (Nat.digits 58 (BN_bin2bn buf)).reverse := by
  rw [encode_drop, List.map_reverse, map_alphabetIndex_digits]

theorem leadingOnes_encode (buf : List (Fin 256)) :
    leadingOnes (encodeSymbols buf) = leadingZeroBytes buf := by
  rw [encodeSymbols_eq]
  exact leadingOnes_replicate_append _ _ (digitSymbols_head _)

/-! ## Lemmas on `base58_decode` -/

theorem isspace_NUL : isspace NUL = false := by decide

theorem alphabet_not_space : ∀ c ∈ BASE58_ALPHABET, isspace c = false := by decide

theorem alphabet_ne_NUL : ∀ c ∈ BASE58_ALPHABET, c ≠ NUL := by decide

theorem isspace_ne_NUL (c : Char) (hc : isspace c = true) : c ≠ NUL := by
  intro e
  rw [e, isspace_NUL] at hc
  exact absurd hc (by decide)

theorem cString_nil : cString [] = [] := rfl

theorem cString_cons_NUL (rest : List Char) : cString (NUL :: rest) = [] := by
  simp [cString]

theorem cString_cons_ne (c : Char) (rest : List Char) (hc : c ≠ NUL) :
    cString (c :: rest) = c :: cString rest := by
  simp [cString, hc]

theorem strchrFrom_eq_none (c : Char) (hc : c ≠ NUL) : ∀ (s : List Char) (k : Nat),
    strchrFrom s c k = none ↔ c ∉ s := by
  intro s
  induction s with
  | nil => intro k; simp [strchrFrom, hc]
  | cons x rest ih =>
    intro k
    by_cases hx : x = c
    · simp [strchrFrom, hx]
    · have hx2 : ¬ c = x := fun e => hx e.symm
      simp [strchrFrom, hx, hx2, ih]

theorem strchr_eq_none (c : Char) (hc : c ≠ NUL) :
    strchr BASE58_ALPHABET c = none ↔ c ∉ BASE58_ALPHABET :=
  strchrFrom_eq_none c hc _ _

theorem skipSpace_eq_dropWhile (s : List Char) : skipSpace s = s.dropWhile isspace := by
  induction s with
  | nil => rfl
  | cons c rest ih =>
    by_cases hc : isspace c = true
    · simp [skipSpace, hc, ih]
    · simp [skipSpace, hc]

theorem cString_skipSpace (s : List Char) :
    cString (skipSpace s) = (cString s).dropWhile isspace := by
  induction s with
  | nil => rfl
  | cons c rest ih =>
    by_cases hc : isspace c = true
    · rw [cString_cons_ne c rest (isspace_ne_NUL c hc), List.dropWhile_cons_of_pos hc, ← ih]
      simp [skipSpace, hc]
    · have hsk : skipSpace (c :: rest) = c :: rest := by simp [skipSpace, hc]
      rw [hsk]
      by_cases hn : c = NUL
      · subst hn; rw [cString_cons_NUL]; rfl
      · rw [cString_cons_ne c rest hn, List.dropWhile_cons_of_neg hc]

theorem deref_skipSpace (p : List Char) :
    deref (skipSpace p) = NUL ↔ ∀ c ∈ cString p, isspace c = true := by
  induction p with
  | nil => simp [skipSpace, deref, cString]
  | cons c rest ih =>
    by_cases hc : isspace c = true
    · have hsk : skipSpace (c :: rest) = skipSpace rest := by simp [skipSpace, hc]
      rw [hsk, cString_cons_ne c rest (isspace_ne_NUL c hc), ih]
      simp [hc]
    · have hsk : skipSpace (c :: rest) = c :: rest := by simp [skipSpace, hc]
      rw [hsk]
      by_cases hn : c = NUL
      · subst hn; rw [cString_cons_NUL]; simp [deref]
      · rw [cString_cons_ne c rest hn]
        simp [deref, hn, hc]

theorem scanLoop_eq_none : ∀ (p : List Char) (bn : Nat),
    scanLoop p bn = none ↔
      ¬ ∃ a w : List Char, cString p = a ++ w ∧
        (∀ c ∈ a, c ∈ BASE58_ALPHABET) ∧ (∀ c ∈ w, isspace c = true) := by
  intro p
  induction p with
  | nil =>
    intro bn
    constructor
    · intro h; simp [scanLoop] at h
    · intro h; exact absurd ⟨[], [], by simp [cString]⟩ h
  | cons c rest ih =>
    intro bn
    by_cases hn : c = NUL
    · subst hn
      constructor
      · intro h; simp [scanLoop] at h
      · intro h; exact absurd ⟨[], [], by simp [cString]⟩ h
    · have hcs : cString (c :: rest) = c :: cString rest := cString_cons_ne c rest hn
      cases hs : strchr BASE58_ALPHABET c with
      | none =>
        have hnot : c ∉ BASE58_ALPHABET := (strchr_eq_none c hn).mp hs
        have hiff := deref_skipSpace (c :: rest)
        simp only [scanLoop, hn, if_false, hs]
        by_cases hd : deref (skipSpace (c :: rest)) = NUL
        · have hall := hiff.mp hd
          constructor
          · intro h; simp [hd] at h
          · intro h
            exact absurd ⟨[], cString (c :: rest), by simp, by simp, hall⟩ h
        · constructor
          · intro _
            rintro ⟨a, w, he, ha, hw⟩
            cases a with
            | nil =>
              apply hd
              apply hiff.mpr
              intro x hx
              rw [he] at hx
              exact hw x (by simpa using hx)
            | cons y a2 =>
              rw [hcs] at he
              simp only [List.cons_append, List.cons.injEq] at he
              apply hnot
              rw [he.1]
              exact ha y (by simp)
          · intro _
            simp [hd]
      | some k =>
        have hmem : c ∈ BASE58_ALPHABET := by
          by_contra hnot
          rw [(strchr_eq_none c hn).mpr hnot] at hs
          exact absurd hs (by simp)
        simp only [scanLoop, hn, if_false, hs]
        rw [ih, hcs]
        apply not_congr
        constructor
        · rintro ⟨a, w, he, ha, hw⟩
          refine ⟨c :: a, w, by simp [he], ?_, hw⟩
          intro x hx
          rcases List.mem_cons.mp hx with rfl | hx
          · exact hmem
          · exact ha x hx
        · rintro ⟨a, w, he, ha, hw⟩
          cases a with
          | nil =>
            have : isspace c = true := hw c (by rw [← List.nil_append w, ← he]; simp)
            rw [alphabet_not_space c hmem] at this
            exact absurd this (by decide)
          | cons y a2 =>
            simp only [List.cons_append, List.cons.injEq] at he
            exact ⟨a2, w, he.2, fun x hx => ha x (by simp [hx]), hw⟩

theorem base58_decode_eq_none (s : List Char) :
    base58_decode s = none ↔ scanLoop (skipSpace s) 0 = none := by
  cases h : scanLoop (skipSpace s) 0 <;> simp [base58_decode, h]

theorem base58_decode_none_iff_form (s : List Char) :
    base58_decode s = none ↔ ¬ Base58Form (cString s) := by
  rw [base58_decode_eq_none, scanLoop_eq_none, cString_skipSpace]
  rfl

/-! ## Lemmas on the hash models and `pubkey_to_address256` -/

theorem foldl_length_inv {β : Type} (f : List Nat → β → List Nat)
    (hf : ∀ s x, (f s x).length = s.length) :
    ∀ (l : List β) (s : List Nat), (l.foldl f s).length = s.length := by
  intro l
  induction l with
  | nil => intro s; rfl
  | cons x rest ih => intro s; rw [List.foldl_cons, ih, hf]

theorem flatMap_beBytes_length (l : List Nat) :
    (l.flatMap OpenSSL.beBytes).length = 4 * l.length := by
  induction l with
  | nil => rfl
  | cons x rest ih =>
    rw [List.flatMap_cons, List.length_append, ih]
    simp [OpenSSL.beBytes]
    omega

theorem flatMap_leBytes_length (l : List Nat) :
    (l.flatMap OpenSSL.leBytes).length = 4 * l.length := by
  induction l with
  | nil => rfl
  | cons x rest ih =>
    rw [List.flatMap_cons, List.length_append, ih]
    simp [OpenSSL.leBytes]
    omega

theorem sha256Round_length (s : List Nat) (kw : Nat × Nat) :
    (OpenSSL.sha256Round s kw).length = s.length := by
  unfold OpenSSL.sha256Round
  split <;> simp

theorem sha256Compress_length (h block : List Nat) :
    (OpenSSL.sha256Compress h block).length = h.length := by
  unfold OpenSSL.sha256Compress
  simp only [List.length_zipWith]
  rw [foldl_length_inv _ sha256Round_length]
  simp

theorem rmdCompress_length (h block : List Nat) :
    (OpenSSL.rmdCompress h block).length = h.length := by
  unfold OpenSSL.rmdCompress
  dsimp only
  split <;> simp

theorem SHA256_length (msg : List (Fin 256)) : (OpenSSL.SHA256 msg).length = 32 := by
  unfold OpenSSL.SHA256
  simp only [List.length_map, flatMap_beBytes_length]
  rw [foldl_length_inv _ sha256Compress_length]
  rfl

theorem RIPEMD160_length (msg : List (Fin 256)) : (OpenSSL.RIPEMD160 msg).length = 20 := by
  unfold OpenSSL.RIPEMD160
  simp only [List.length_map, flatMap_leBytes_length]
  rw [foldl_length_inv _ rmdCompress_length]
  rfl

set_option maxRecDepth 1000000 in
theorem SHA256_abc :
    OpenSSL.SHA256 [0x61, 0x62, 0x63] =
      [0xba, 0x78, 0x16, 0xbf, 0x8f, 0x01, 0xcf, 0xea, 0x41, 0x41, 0x40, 0xde, 0x5d, 0xae,
        0x22, 0x23, 0xb0, 0x03, 0x61, 0xa3, 0x96, 0x17, 0x7a, 0x9c, 0xb4, 0x10, 0xff, 0x61,
        0xf2, 0x00, 0x15, 0xad] := by
  decide

set_option maxRecDepth 1000000 in
theorem SHA256_two_blocks :
    OpenSSL.SHA256 (List.replicate 56 0x61) =
      [0xb3, 0x54, 0x39, 0xa4, 0xac, 0x6f, 0x09, 0x48, 0xb6, 0xd6, 0xf9, 0xe3, 0xc6, 0xaf,
        0x0f, 0x5f, 0x59, 0x0c, 0xe2, 0x0f, 0x1b, 0xde, 0x70, 0x90, 0xef, 0x79, 0x70, 0x68,
        0x6e, 0xc6, 0x73, 0x8a] := by
  decide

set_option maxRecDepth 1000000 in
theorem RIPEMD160_abc :
    OpenSSL.RIPEMD160 [0x61, 0x62, 0x63] =
      [0x8e, 0xb2, 0x08, 0xf7, 0xe0, 0x5d, 0x98, 0x7a, 0x9b, 0x04, 0x4a, 0x8e, 0x98, 0xc6,
        0xb0, 0x87, 0xf1, 0x5a, 0x0b, 0xfc] := by
  decide

theorem address256_eq (SHA256 RIPEMD160 : List (Fin 256) → List (Fin 256))
    (hS : ∀ x, (SHA256 x).length = 32) (hR : ∀ x, (RIPEMD160 x).length = 20)
    (pub_data : List (Fin 256)) :
    pubkey_to_address256 SHA256 RIPEMD160 pub_data =
      (0 :: RIPEMD160 (SHA256 pub_data)) ++
        (SHA256 (0 :: RIPEMD160 (SHA256 pub_data))).take 4 := by
  have h1 : (SHA256 pub_data).take 32 = SHA256 pub_data :=
    List.take_of_length_le (by rw [hS])
  have h2 : (RIPEMD160 (SHA256 pub_data)).take 20 = RIPEMD160 (SHA256 pub_data) :=
    List.take_of_length_le (by rw [hR])
  have h3 : ([(0 : Fin 256)] ++ RIPEMD160 (SHA256 pub_data)).take (1 + 20) =
      0 :: RIPEMD160 (SHA256 pub_data) :=
    List.take_of_length_le (by simp [hR])
  unfold pubkey_to_address256
  simp only [h1, h2, h3]
  apply List.take_of_length_le
  simp [hR, hS]

/-! ## Lemmas on `FormatHashBlocks` and `sha256_midstate` -/

theorem FormatHashBlocks_fst (pbuffer : Nat → Fin 256) (len : Nat) (h : len + 72 < 2 ^ 32) :
    (FormatHashBlocks pbuffer len).1 = 1 + (len + 8) / 64 := by
  have h1 : (len + 8) % 2 ^ 32 = len + 8 := Nat.mod_eq_of_lt (by omega)
  have h2 : (1 + (len + 8) / 64) % 2 ^ 32 = 1 + (len + 8) / 64 := Nat.mod_eq_of_lt (by omega)
  simp only [FormatHashBlocks, u32, h1, h2]

theorem FormatHashBlocks_snd (pbuffer : Nat → Fin 256) (len : Nat) (h : len + 72 < 2 ^ 32)
    (i : Nat) :
    (FormatHashBlocks pbuffer len).2 i =
      if i = 64 * (1 + (len + 8) / 64) - 4 then toByte ((u32 (len * 8) >>> 24) &&& 0xff)
      else if i = 64 * (1 + (len + 8) / 64) - 3 then toByte ((u32 (len * 8) >>> 16) &&& 0xff)
      else if i = 64 * (1 + (len + 8) / 64) - 2 then toByte ((u32 (len * 8) >>> 8) &&& 0xff)
      else if i = 64 * (1 + (len + 8) / 64) - 1 then toByte ((u32 (len * 8) >>> 0) &&& 0xff)
      else if i = len then 0x80
      else if len ≤ i ∧ i < 64 * (1 + (len + 8) / 64) then 0
      else pbuffer i := by
  have h1 : (len + 8) % 2 ^ 32 = len + 8 := Nat.mod_eq_of_lt (by omega)
  have h2 : (1 + (len + 8) / 64) % 2 ^ 32 = 1 + (len + 8) / 64 := Nat.mod_eq_of_lt (by omega)
  have h3 : (64 * (1 + (len + 8) / 64)) % 2 ^ 32 = 64 * (1 + (len + 8) / 64) :=
    Nat.mod_eq_of_lt (by omega)
  have h4 : (64 * (1 + (len + 8) / 64) + 2 ^ 32 - len) % 2 ^ 32 =
      64 * (1 + (len + 8) / 64) - len := by
    have e : 64 * (1 + (len + 8) / 64) + 2 ^ 32 - len =
        (64 * (1 + (len + 8) / 64) - len) + 2 ^ 32 := by omega
    rw [e, Nat.add_mod_right]
    exact Nat.mod_eq_of_lt (by omega)
  have h5 : len + (64 * (1 + (len + 8) / 64) - len) = 64 * (1 + (len + 8) / 64) := by omega
  simp only [FormatHashBlocks, u32, h1, h2, h3, h4, store, memset, h5]

theorem FormatHashBlocks_below (pbuffer : Nat → Fin 256) (len : Nat) (h : len + 72 < 2 ^ 32)
    (i : Nat) (hi : i < len) : (FormatHashBlocks pbuffer len).2 i = pbuffer i := by
  rw [FormatHashBlocks_snd pbuffer len h i]
  have hB : len + 9 ≤ 64 * (1 + (len + 8) / 64) := by omega
  have n4 : ¬ i = 64 * (1 + (len + 8) / 64) - 4 := by omega
  have n3 : ¬ i = 64 * (1 + (len + 8) / 64) - 3 := by omega
  have n2 : ¬ i = 64 * (1 + (len + 8) / 64) - 2 := by omega
  have n1 : ¬ i = 64 * (1 + (len + 8) / 64) - 1 := by omega
  have n0 : ¬ i = len := by omega
  have nz : ¬ (len ≤ i ∧ i < 64 * (1 + (len + 8) / 64)) := by omega
  rw [if_neg n4, if_neg n3, if_neg n2, if_neg n1, if_neg n0, if_neg nz]

theorem range_map_getD (blk : List (Fin 256)) (n : Nat) (hn : n ≤ blk.length) :
    (List.range n).map (fun i => blk.getD i 0) = blk.take n := by
  apply List.ext_getElem
  · simp [hn]
  · intro i h1 h2
    have hi : i < n := by simpa using h1
    simp [List.getD_eq_getElem?_getD, List.getElem?_eq_getElem (show i < blk.length by omega)]

theorem midstate_first_block (heap : Nat → Fin 256) (blk : List (Fin 256))
    (h64 : 64 ≤ blk.length) (hw : blk.length + 72 < 2 ^ 32) :
    readBytes (FormatHashBlocks
      (fun i => if i < u32 blk.length then blk.getD i 0 else heap i) (u32 blk.length)).2 64 =
      blk.take 64 := by
  have hu : u32 blk.length = blk.length := Nat.mod_eq_of_lt (by omega)
  rw [hu, ← range_map_getD blk 64 h64]
  unfold readBytes
  apply List.map_congr_left
  intro i hi
  have hi2 : i < 64 := List.mem_range.mp hi
  rw [FormatHashBlocks_below _ _ hw i (by omega), if_pos (by omega)]

/-! ## Lemmas on decoding alphabet strings -/

theorem space_not_alphabet (c : Char) (hc : isspace c = true) : c ∉ BASE58_ALPHABET := by
  intro h
  rw [alphabet_not_space c h] at hc
  exact absurd hc (by decide)

theorem skipSpace_all_space (w : List Char) (hw : ∀ c ∈ w, isspace c = true) :
    skipSpace w = [] := by
  induction w with
  | nil => rfl
  | cons c rest ih =>
    have hc : isspace c = true := hw c (by simp)
    simp only [skipSpace, hc, if_true]
    exact ih (fun x hx => hw x (by simp [hx]))

theorem skipSpace_space_append (w t : List Char) (hw : ∀ c ∈ w, isspace c = true) :
    skipSpace (w ++ t) = skipSpace t := by
  induction w with
  | nil => rfl
  | cons c rest ih =>
    have hc : isspace c = true := hw c (by simp)
    simp only [List.cons_append, skipSpace, hc, if_true]
    exact ih (fun x hx => hw x (by simp [hx]))

theorem skipSpace_alphabet_cons (c : Char) (t : List Char) (hc : c ∈ BASE58_ALPHABET) :
    skipSpace (c :: t) = c :: t := by
  simp [skipSpace, alphabet_not_space c hc]

theorem strchr_alphabet (c : Char) (hc : c ∈ BASE58_ALPHABET) :
    strchr BASE58_ALPHABET c = some (alphabetIndex c) := by
  cases hs : strchr BASE58_ALPHABET c with
  | none => exact absurd hc ((strchr_eq_none c (alphabet_ne_NUL c hc)).mp hs)
  | some k => simp [alphabetIndex, hs]

theorem scanLoop_space (w : List Char) (bn : Nat) (hw : ∀ c ∈ w, isspace c = true) :
    scanLoop w bn = some bn := by
  cases w with
  | nil => rfl
  | cons c rest =>
    have hc : isspace c = true := hw c (by simp)
    have hn : c ≠ NUL := isspace_ne_NUL c hc
    have hs : strchr BASE58_ALPHABET c = none :=
      (strchr_eq_none c hn).mpr (space_not_alphabet c hc)
    have hd : deref (skipSpace (c :: rest)) = NUL := by
      rw [skipSpace_all_space _ hw]; rfl
    simp [scanLoop, hn, hs, hd]

theorem scanLoop_alphabet_space : ∀ (s w : List Char) (bn : Nat),
    (∀ c ∈ s, c ∈ BASE58_ALPHABET) → (∀ c ∈ w, isspace c = true) →
    scanLoop (s ++ w) bn = some (s.foldl (fun value c => value * 58 + alphabetIndex c) bn) := by
  intro s
  induction s with
  | nil => intro w bn _ hw; exact scanLoop_space w bn hw
  | cons c rest ih =>
    intro w bn hs hw
    have hc : c ∈ BASE58_ALPHABET := hs c (by simp)
    have hn : c ≠ NUL := alphabet_ne_NUL c hc
    simp only [List.cons_append, scanLoop, hn, if_false, strchr_alphabet c hc, List.foldl_cons]
    exact ih w _ (fun x hx => hs x (by simp [hx])) hw

theorem countZeroSymbols_eq_leadingOnes (s : List Char) :
    countZeroSymbols s = leadingOnes s := by
  have h1 : alphabetAt 0 = '1' := by decide
  induction s with
  | nil => rfl
  | cons c rest ih =>
    by_cases hc : c = '1'
    · simp only [countZeroSymbols, h1, hc, if_true, ih, leadingOnes]
      rw [List.takeWhile_cons_of_pos (by simp), List.length_cons]
    · simp only [countZeroSymbols, h1, hc, if_false, leadingOnes]
      rw [List.takeWhile_cons_of_neg (by simpa using hc)]
      rfl

theorem leadingOnes_append_space (s w : List Char) (hw : ∀ c ∈ w, isspace c = true) :
    leadingOnes (s ++ w) = leadingOnes s := by
  induction s with
  | nil =>
    cases w with
    | nil => rfl
    | cons c rest =>
      have hc : c ≠ '1' := by
        intro e
        have := hw c (by simp)
        rw [e] at this
        exact absurd this (by decide)
      simp only [leadingOnes, List.nil_append]
      rw [List.takeWhile_cons_of_neg (by simpa using hc)]
      rfl
  | cons c rest ih =>
    simp only [leadingOnes] at ih ⊢
    by_cases hc : c = '1'
    · rw [List.cons_append, List.takeWhile_cons_of_pos (by simpa using hc),
        List.takeWhile_cons_of_pos (by simpa using hc), List.length_cons, List.length_cons, ih]
    · rw [List.cons_append, List.takeWhile_cons_of_neg (by simpa using hc),
        List.takeWhile_cons_of_neg (by simpa using hc)]

theorem base58_decode_spaced (w1 s w2 : List Char)
    (hs : ∀ c ∈ s, c ∈ BASE58_ALPHABET) (h1 : ∀ c ∈ w1, isspace c = true)
    (h2 : ∀ c ∈ w2, isspace c = true) :
    base58_decode (w1 ++ s ++ w2) =
      some (List.replicate (leadingOnes s) 0 ++
        (BN_bn2bin (foldValue s)).take
          (trimLen (BN_bn2bin (foldValue s)) (BN_num_bytes (foldValue s)))) := by
  have hskip : skipSpace (w1 ++ s ++ w2) = skipSpace (s ++ w2) := by
    rw [List.append_assoc]; exact skipSpace_space_append w1 _ h1
  cases s with
  | nil =>
    have e : skipSpace (w1 ++ [] ++ w2) = [] := by
      rw [hskip]; exact skipSpace_all_space _ (by simpa using h2)
    simp only [base58_decode, e, scanLoop, countZeroSymbols]
    rfl
  | cons c rest =>
    have e : skipSpace (w1 ++ c :: rest ++ w2) = c :: rest ++ w2 := by
      rw [hskip]; exact skipSpace_alphabet_cons c _ (hs c (by simp))
    simp only [base58_decode, e, scanLoop_alphabet_space (c :: rest) w2 0 hs h2,
      countZeroSymbols_eq_leadingOnes, leadingOnes_append_space (c :: rest) w2 h2]
    rfl

theorem base58_decode_alphabet (s : List Char) (hs : ∀ c ∈ s, c ∈ BASE58_ALPHABET) :
    base58_decode s =
      some (List.replicate (leadingOnes s) 0 ++
        (BN_bn2bin (foldValue s)).take
          (trimLen (BN_bn2bin (foldValue s)) (BN_num_bytes (foldValue s)))) := by
  have := base58_decode_spaced [] s [] hs (by simp) (by simp)
  simpa using this

theorem numBytesLoop_eq : ∀ (fuel bn n : Nat), bn ≤ fuel →
    numBytesLoop fuel bn n = n + (Nat.digits 256 bn).length := by
  intro fuel
  induction fuel with
  | zero =>
    intro bn n h
    have : bn = 0 := by omega
    subst this
    simp [numBytesLoop]
  | succ f ih =>
    intro bn n h
    by_cases hb : bn = 0
    · subst hb; simp [numBytesLoop]
    · have hpos : 0 < bn := Nat.pos_of_ne_zero hb
      have hlt : bn / 256 ≤ f := by
        have : bn / 256 < bn := Nat.div_lt_self hpos (by decide)
        omega
      rw [numBytesLoop, if_neg hb, ih _ _ hlt, Nat.digits_def' (by decide) hpos]
      simp only [List.length_cons]
      omega

theorem BN_num_bytes_eq (bn : Nat) : BN_num_bytes bn = (BN_bn2bin bn).length := by
  rw [BN_bn2bin_eq, BN_num_bytes, numBytesLoop_eq bn bn 0 (le_refl _)]
  simp

theorem foldl_symbols (D : List Char) : ∀ acc : Nat,
    D.foldl (fun value c => value * 58 + alphabetIndex c) acc =
      acc * 58 ^ D.length + Nat.ofDigits 58 ((D.map alphabetIndex).reverse) := by
  induction D with
  | nil => intro acc; simp
  | cons c D2 ih =>
    intro acc
    rw [List.foldl_cons, ih, List.map_cons, List.reverse_cons, Nat.ofDigits_append,
      Nat.ofDigits_singleton, List.length_cons]
    simp only [List.length_reverse, List.length_map]
    ring

theorem foldl_ones (k : Nat) :
    (List.replicate k '1').foldl (fun value c => value * 58 + alphabetIndex c) 0 = 0 := by
  induction k with
  | zero => rfl
  | succ k ih =>
    have h1 : alphabetIndex '1' = 0 := by decide
    rw [List.replicate_succ, List.foldl_cons, h1]
    exact ih

theorem foldValue_encode (buf : List (Fin 256)) :
    foldValue (encodeSymbols buf) = BN_bin2bn buf := by
  rw [encodeSymbols_eq, foldValue, List.foldl_append, foldl_ones, foldl_symbols,
    List.map_reverse, List.reverse_reverse, map_alphabetIndex_digits, Nat.ofDigits_digits]
  simp

theorem encode_alphabet (buf : List (Fin 256)) :
    ∀ c ∈ encodeSymbols buf, ∃ d, d < 58 ∧ c = alphabetAt d := by
  intro c hc
  rw [encodeSymbols_eq] at hc
  rcases List.mem_append.mp hc with h | h
  · have : c = '1' := (List.mem_replicate.mp h).2
    exact ⟨0, by decide, by rw [this]; decide⟩
  · simp only [List.mem_reverse, List.mem_map] at h
    obtain ⟨d, hd, rfl⟩ := h
    exact ⟨d, Nat.digits_lt_base (by decide) hd, rfl⟩

theorem encode_mem_alphabet (buf : List (Fin 256)) :
    ∀ c ∈ encodeSymbols buf, c ∈ BASE58_ALPHABET := by
  intro c hc
  obtain ⟨d, hd, rfl⟩ := encode_alphabet buf c hc
  exact alphabetAt_mem d hd

theorem BN_bn2bin_encode_value (buf : List (Fin 256)) :
    BN_bn2bin (BN_bin2bn buf) = buf.dropWhile (fun x => x = 0) := by
  have h1 := buf_split buf
  have h2 : BN_bin2bn buf = BN_bin2bn (buf.dropWhile (fun x => x = 0)) := by
    conv_lhs => rw [h1]
    exact BN_bin2bn_zeros_append _ _
  rw [h2, BN_bn2bin_bin2bn _ (dropWhile_zero_head buf)]

theorem decode_encode (buf : List (Fin 256)) :
    base58_decode (encodeSymbols buf) =
      some (List.replicate (leadingZeroBytes buf) 0 ++
        (buf.dropWhile (fun x => x = 0)).take
          (trimLen (buf.dropWhile (fun x => x = 0))
            (buf.dropWhile (fun x => x = 0)).length)) := by
  rw [base58_decode_alphabet _ (encode_mem_alphabet buf), leadingOnes_encode,
    foldValue_encode, BN_num_bytes_eq, BN_bn2bin_encode_value]

theorem getD_last_two (pre : List (Fin 256)) (x z : Fin 256) :
    (pre ++ [x, z]).getD ((pre ++ [x, z]).length - 1) 0 = z ∧
      (pre ++ [x, z]).getD ((pre ++ [x, z]).length - 2) 0 = x := by
  have hl : (pre ++ [x, z]).length = pre.length + 2 := by simp
  have e1 : pre.length + 2 - 1 = pre.length + 1 := by omega
  have e2 : pre.length + 2 - 2 = pre.length := by omega
  have s1 : pre.length + 1 - pre.length = 1 := by omega
  have s2 : pre.length - pre.length = 0 := by omega
  constructor
  · rw [hl, e1, List.getD_eq_getElem?_getD, List.getElem?_append_right (by omega), s1]
    rfl
  · rw [hl, e2, List.getD_eq_getElem?_getD, List.getElem?_append_right (by omega), s2]
    rfl

theorem trimLen_cond (m : List (Fin 256)) :
    (2 ≤ m.length ∧ m.getD (m.length - 1) 0 = 0 ∧ 0x80 ≤ (m.getD (m.length - 2) 0).val) ↔
      ∃ (pre : List (Fin 256)) (x : Fin 256), m = pre ++ [x, 0] ∧ 0x80 ≤ x.val := by
  constructor
  · rintro ⟨hlen, h0, h80⟩
    rcases List.eq_nil_or_concat m with rfl | ⟨m1, z, rfl⟩
    · simp at hlen
    · rcases List.eq_nil_or_concat m1 with rfl | ⟨pre, x, rfl⟩
      · simp at hlen
      · have e : (pre.concat x).concat z = pre ++ [x, z] := by simp
        rw [e] at h0 h80
        rw [(getD_last_two pre x z).1] at h0
        rw [(getD_last_two pre x z).2] at h80
        exact ⟨pre, x, by rw [e, h0], h80⟩
  · rintro ⟨pre, x, rfl, hx⟩
    refine ⟨by simp, (getD_last_two pre x 0).1, ?_⟩
    rw [(getD_last_two pre x 0).2]
    exact hx

theorem BN_bin2bn_zeros (n : Nat) : BN_bin2bn (List.replicate n 0) = 0 := by
  have h := BN_bin2bn_zeros_append n []
  rw [List.append_nil] at h
  rw [h]
  rfl

theorem leadingZeroBytes_zeros (n : Nat) : leadingZeroBytes (List.replicate n 0) = n := by
  induction n with
  | zero => rfl
  | succ n ih =>
    simp only [leadingZeroBytes] at ih ⊢
    rw [List.replicate_succ, List.takeWhile_cons_of_pos (by simp), List.length_cons, ih]

/-! ## Lemmas on the padding boundary and on the buffer sizes -/

theorem BN_bin2bn_lt (m : List (Fin 256)) : BN_bin2bn m < 256 ^ m.length := by
  rw [BN_bin2bn_eq_ofDigits]
  have h := Nat.ofDigits_lt_base_pow_length (b := 256) (l := (m.map Fin.val).reverse)
    (by decide) (by
      intro x hx
      simp only [List.mem_reverse, List.mem_map] at hx
      obtain ⟨y, _, rfl⟩ := hx
      exact y.isLt)
  simpa using h

theorem digits58_length_le (v n : Nat) (h : v < 58 ^ n) : (Nat.digits 58 v).length ≤ n := by
  by_cases hv : v = 0
  · subst hv; simp
  · rw [Nat.digits_len 58 v (by decide) hv]
    exact Nat.log_lt_of_lt_pow hv h

theorem pow_256_le_pow_58 (j k : Nat) (h : k + j ≤ 72) : 256 ^ j ≤ 58 ^ (99 - k) := by
  have h1 : 256 ^ j * 58 ^ k ≤ 58 ^ (99 - k) * 58 ^ k := by
    calc 256 ^ j * 58 ^ k ≤ 256 ^ j * 256 ^ k :=
          Nat.mul_le_mul_left _ (Nat.pow_le_pow_left (by decide) k)
      _ = 256 ^ (j + k) := (pow_add 256 j k).symm
      _ ≤ 256 ^ 72 := Nat.pow_le_pow_right (by decide) (by omega)
      _ ≤ 58 ^ 99 := by norm_num
      _ = 58 ^ (99 - k) * 58 ^ k := by rw [← pow_add]; congr 1; omega
  exact Nat.le_of_mul_le_mul_right h1 (pow_pos (by decide) k)

theorem encodeCount_eq (buf : List (Fin 256)) :
    encodeCount buf = leadingZeroBytes buf + (Nat.digits 58 (BN_bin2bn buf)).length := by
  unfold encodeCount
  simp only [divSymbols_eq _ _ _ (le_refl _), zeroSymbols_eq]
  simp
  omega

theorem encode_length (buf : List (Fin 256)) :
    (encodeSymbols buf).length = encodeCount buf := by
  rw [encodeCount_eq, encodeSymbols_eq]
  simp

theorem encodeCount_le (buf : List (Fin 256)) (h : buf.length ≤ 72) : encodeCount buf ≤ 99 := by
  have hsplit := buf_split buf
  have hlen : buf.length = leadingZeroBytes buf + (buf.dropWhile (fun x => x = 0)).length := by
    conv_lhs => rw [hsplit]
    simp
  have hv : BN_bin2bn buf = BN_bin2bn (buf.dropWhile (fun x => x = 0)) := by
    conv_lhs => rw [hsplit]
    exact BN_bin2bn_zeros_append _ _
  have hlt : BN_bin2bn buf < 58 ^ (99 - leadingZeroBytes buf) := by
    rw [hv]
    exact lt_of_lt_of_le (BN_bin2bn_lt _) (pow_256_le_pow_58 _ _ (by omega))
  have := digits58_length_le _ _ hlt
  rw [encodeCount_eq]
  omega

theorem blocks_fit_iff (pbuffer : Nat → Fin 256) (len : Nat) (h : len + 72 < 2 ^ 32) :
    64 * (FormatHashBlocks pbuffer len).1 ≤ midstateReserved len ↔ len % 64 < 56 := by
  have hr : midstateReserved len = len + 64 := Nat.mod_eq_of_lt (by omega)
  rw [FormatHashBlocks_fst pbuffer len h, hr]
  omega

set_option maxRecDepth 100000 in
theorem encodeCount_73 : encodeCount (List.replicate 73 0xff) = 100 := by
  decide


/-! ## Lemmas on the stores into `str` and into the working buffer -/

theorem divSymbols_length_ge : ∀ (fuel bn : Nat) (str : List Char),
    str.length ≤ (divSymbols fuel bn str).length := by
  intro fuel
  induction fuel with
  | zero => intro bn str; simp [divSymbols]
  | succ f ih =>
    intro bn str
    by_cases hb : bn > 0
    · rw [divSymbols, if_pos hb]
      have := ih (bn / 58) (str ++ [alphabetAt (bn % 58)])
      simp only [List.length_append, List.length_singleton] at this
      omega
    · rw [divSymbols, if_neg hb]

theorem zeroSymbols_length_ge : ∀ (buf : List (Fin 256)) (str : List Char),
    str.length ≤ (zeroSymbols buf str).length := by
  intro buf
  induction buf with
  | nil => intro str; simp [zeroSymbols]
  | cons x rest ih =>
    intro str
    by_cases hx : x ≠ 0
    · rw [zeroSymbols, if_pos hx]
    · rw [zeroSymbols, if_neg hx]
      have := ih (str ++ [alphabetAt 0])
      simp only [List.length_append, List.length_singleton] at this
      omega

theorem divLoop_eq : ∀ (fuel bn : Nat) (str : List Char), str.length ≤ STR_CAPACITY →
    divLoop fuel bn str =
      if (divSymbols fuel bn str).length ≤ STR_CAPACITY then some (divSymbols fuel bn str)
      else none := by
  intro fuel
  induction fuel with
  | zero =>
    intro bn str h
    simp [divLoop, divSymbols, h]
  | succ f ih =>
    intro bn str h
    by_cases hb : bn > 0
    · rw [divLoop, if_pos hb, divSymbols, if_pos hb]
      by_cases hlt : str.length < STR_CAPACITY
      · have hle : (str ++ [alphabetAt (bn % 58)]).length ≤ STR_CAPACITY := by
          simp only [List.length_append, List.length_singleton]; omega
        simp only [strPut, if_pos hlt, Option.some_bind]
        exact ih _ _ hle
      · have hge := divSymbols_length_ge f (bn / 58) (str ++ [alphabetAt (bn % 58)])
        simp only [List.length_append, List.length_singleton] at hge
        have hgt : ¬ (divSymbols f (bn / 58) (str ++ [alphabetAt (bn % 58)])).length ≤
            STR_CAPACITY := by omega
        simp only [strPut, if_neg hlt, Option.none_bind, if_neg hgt]
    · rw [divLoop, if_neg hb, divSymbols, if_neg hb, if_pos h]

theorem zerosLoop_eq : ∀ (buf : List (Fin 256)) (str : List Char),
    str.length ≤ STR_CAPACITY →
    zerosLoop buf str =
      if (zeroSymbols buf str).length ≤ STR_CAPACITY then some (zeroSymbols buf str)
      else none := by
  intro buf
  induction buf with
  | nil => intro str h; simp [zerosLoop, zeroSymbols, h]
  | cons x rest ih =>
    intro str h
    by_cases hx : x ≠ 0
    · rw [zerosLoop, if_pos hx, zeroSymbols, if_pos hx, if_pos h]
    · rw [zerosLoop, if_neg hx, zeroSymbols, if_neg hx]
      by_cases hlt : str.length < STR_CAPACITY
      · have hle : (str ++ [alphabetAt 0]).length ≤ STR_CAPACITY := by
          simp only [List.length_append, List.length_singleton]; omega
        simp only [strPut, if_pos hlt, Option.some_bind]
        exact ih _ hle
      · have hge := zeroSymbols_length_ge rest (str ++ [alphabetAt 0])
        simp only [List.length_append, List.length_singleton] at hge
        have hgt : ¬ (zeroSymbols rest (str ++ [alphabetAt 0])).length ≤ STR_CAPACITY := by
          omega
        simp only [strPut, if_neg hlt, Option.none_bind, if_neg hgt]

theorem base58_encode_eq (buf : List (Fin 256)) :
    base58_encode buf =
      if encodeCount buf < STR_CAPACITY then some (encodeSymbols buf) else none := by
  have hd := divLoop_eq (BN_bin2bn buf) (BN_bin2bn buf) [] (by simp)
  have hge := zeroSymbols_length_ge buf (divSymbols (BN_bin2bn buf) (BN_bin2bn buf) [])
  unfold base58_encode encodeCount encodeSymbols
  simp only [hd]
  by_cases h1 : (divSymbols (BN_bin2bn buf) (BN_bin2bn buf) []).length ≤ STR_CAPACITY
  · rw [if_pos h1, Option.some_bind, zerosLoop_eq buf _ h1]
    by_cases h2 : (zeroSymbols buf (divSymbols (BN_bin2bn buf) (BN_bin2bn buf) [])).length ≤
        STR_CAPACITY
    · rw [if_pos h2, Option.some_bind]
    · have h3 : ¬ (zeroSymbols buf (divSymbols (BN_bin2bn buf) (BN_bin2bn buf) [])).length <
          STR_CAPACITY := by omega
      rw [if_neg h2, Option.none_bind, if_neg h3]
  · have h3 : ¬ (zeroSymbols buf (divSymbols (BN_bin2bn buf) (BN_bin2bn buf) [])).length <
        STR_CAPACITY := by omega
    rw [if_neg h1, Option.none_bind, if_neg h3]

theorem base58_encode_some (buf : List (Fin 256)) (s : List Char)
    (h : base58_encode buf = some s) :
    s = encodeSymbols buf ∧ encodeCount buf < STR_CAPACITY := by
  rw [base58_encode_eq] at h
  by_cases hc : encodeCount buf < STR_CAPACITY
  · rw [if_pos hc] at h
    exact ⟨(Option.some.inj h).symm, hc⟩
  · rw [if_neg hc] at h
    exact absurd h (by simp)

theorem base58_encode_of_lt (buf : List (Fin 256)) (h : encodeCount buf < STR_CAPACITY) :
    base58_encode buf = some (encodeSymbols buf) := by
  rw [base58_encode_eq, if_pos h]

theorem midstate_inBounds_iff (len : Nat) (h : len + 72 < 2 ^ 32) :
    (len ≤ midstateReserved len ∧ paddingInBounds (midstateReserved len) len = true ∧
      64 ≤ midstateReserved len) ↔ len % 64 < 56 := by
  have hr : midstateReserved len = len + 64 := Nat.mod_eq_of_lt (by omega)
  have h1 : (len + 8) % 2 ^ 32 = len + 8 := Nat.mod_eq_of_lt (by omega)
  have h2 : (1 + (len + 8) / 64) % 2 ^ 32 = 1 + (len + 8) / 64 := Nat.mod_eq_of_lt (by omega)
  have h3 : (64 * (1 + (len + 8) / 64)) % 2 ^ 32 = 64 * (1 + (len + 8) / 64) :=
    Nat.mod_eq_of_lt (by omega)
  have h4 : (64 * (1 + (len + 8) / 64) + 2 ^ 32 - len) % 2 ^ 32 =
      64 * (1 + (len + 8) / 64) - len := by
    have e : 64 * (1 + (len + 8) / 64) + 2 ^ 32 - len =
        (64 * (1 + (len + 8) / 64) - len) + 2 ^ 32 := by omega
    rw [e, Nat.add_mod_right]
    exact Nat.mod_eq_of_lt (by omega)
  rw [hr]
  simp only [paddingInBounds, u32, h1, h2, h3, h4, Bool.and_eq_true, decide_eq_true_eq]
  omega

theorem sha256_midstate_eq {Ctx : Type} (SHA256_Init : Ctx)
    (SHA256_Transform : Ctx → List (Fin 256) → Ctx) (h_bytes : Ctx → List (Fin 256))
    (heap : Nat → Fin 256) (blk : List (Fin 256)) (hw : blk.length + 72 < 2 ^ 32) :
    sha256_midstate SHA256_Init SHA256_Transform h_bytes heap blk =
      if blk.length % 64 < 56 then
        some ((h_bytes (SHA256_Transform SHA256_Init
          (readBytes (FormatHashBlocks
            (fun i => if i < blk.length then blk.getD i 0 else heap i) blk.length).2 64))).take 32)
      else none := by
  have hu : u32 blk.length = blk.length := Nat.mod_eq_of_lt (by omega)
  have hiff := midstate_inBounds_iff blk.length hw
  unfold sha256_midstate
  simp only [hu]
  by_cases hc : blk.length % 64 < 56
  · rw [if_pos (hiff.mpr hc), if_pos hc]
  · rw [if_neg (fun hh => hc (hiff.mp hh)), if_neg hc]

/-! ## Lemmas on the symbols of the encoder -/

theorem encodeSymbols_digits (buf : List (Fin 256)) :
    leadingZeroBytes buf ≤ (encodeSymbols buf).length ∧
    (∀ c ∈ (encodeSymbols buf).drop (leadingZeroBytes buf), c ∈ BASE58_ALPHABET) ∧
    ((encodeSymbols buf).drop (leadingZeroBytes buf)).map alphabetIndex =
      (Nat.digits 58 (BN_bin2bn buf)).reverse ∧
    positionalValue ((encodeSymbols buf).drop (leadingZeroBytes buf)) = BN_bin2bn buf ∧
    ((encodeSymbols buf).drop (leadingZeroBytes buf)).head? ≠ some (alphabetAt 0) ∧
    (BN_bin2bn buf = 0 → (encodeSymbols buf).drop (leadingZeroBytes buf) = []) := by
  refine ⟨?_, ?_, encode_drop_index buf, ?_, ?_, ?_⟩
  · rw [encodeSymbols_eq]; simp
  · intro c hc
    rw [encode_drop] at hc
    simp only [List.mem_reverse, List.mem_map] at hc
    obtain ⟨d, hd, rfl⟩ := hc
    exact alphabetAt_mem d (Nat.digits_lt_base (by decide) hd)
  · rw [positionalValue_eq_ofDigits, encode_drop_index, List.reverse_reverse,
      Nat.ofDigits_digits]
  · rw [encode_drop]
    exact digitSymbols_head _
  · intro h0
    rw [encode_drop, h0]
    simp

theorem encodeSymbols_leading_zeros (k : Nat) (x : Fin 256) (rest : List (Fin 256))
    (hx : x ≠ 0) :
    encodeSymbols (List.replicate k 0 ++ x :: rest) =
        List.replicate k '1' ++ encodeSymbols (x :: rest) ∧
      (encodeSymbols (x :: rest)).head? ≠ some '1' ∧
      leadingOnes (encodeSymbols (List.replicate k 0 ++ x :: rest)) = k ∧
      leadingZeroBytes (List.replicate k 0 ++ x :: rest) = k := by
  have hk := leadingZeroBytes_zeros_append k x rest hx
  have h0 : leadingZeroBytes (x :: rest) = 0 := by
    simpa using leadingZeroBytes_zeros_append 0 x rest hx
  have he : encodeSymbols (x :: rest) =
      ((Nat.digits 58 (BN_bin2bn (x :: rest))).map alphabetAt).reverse := by
    rw [encodeSymbols_eq, h0]; simp
  have hhead : (encodeSymbols (x :: rest)).head? ≠ some '1' := by
    rw [he]; exact digitSymbols_head _
  have hfull : encodeSymbols (List.replicate k 0 ++ x :: rest) =
      List.replicate k '1' ++ encodeSymbols (x :: rest) := by
    rw [encodeSymbols_eq, hk, BN_bin2bn_zeros_append, he]
  refine ⟨hfull, hhead, ?_, hk⟩
  rw [hfull]
  exact leadingOnes_replicate_append k _ hhead

theorem encodeSymbols_zero_bytes (N : Nat) :
    encodeSymbols (List.replicate N 0) = List.replicate N '1' ∧
      encodeSymbols [] = [] := by
  constructor
  · rw [encodeSymbols_eq, BN_bin2bn_zeros, leadingZeroBytes_zeros]; simp
  · decide

theorem encodeSymbols_roundtrip (b : List (Fin 256)) :
    (base58_decode (encodeSymbols b) = some b ↔
      ¬ ∃ (pre : List (Fin 256)) (x : Fin 256),
        b.dropWhile (fun y => y = 0) = pre ++ [x, 0] ∧ 0x80 ≤ x.val) ∧
    (∀ (pre : List (Fin 256)) (x : Fin 256),
      b.dropWhile (fun y => y = 0) = pre ++ [x, 0] → 0x80 ≤ x.val →
        base58_decode (encodeSymbols b) = some b.dropLast) := by
  have hdec := decode_encode b
  have hsplit := buf_split b
  have hcond := trimLen_cond (b.dropWhile (fun y => y = 0))
  have hdrop : ∀ (pre : List (Fin 256)) (x : Fin 256),
      b.dropWhile (fun y => y = 0) = pre ++ [x, 0] → 0x80 ≤ x.val →
        base58_decode (encodeSymbols b) = some b.dropLast := by
    intro pre x hm hx
    have hc := hcond.mpr ⟨pre, x, hm, hx⟩
    have hne : b.dropWhile (fun y => y = 0) ≠ [] := by rw [hm]; simp
    rw [hdec, trimLen, if_pos hc, ← List.dropLast_eq_take,
      ← List.dropLast_append_of_ne_nil _ hne, ← hsplit]
  refine ⟨?_, hdrop⟩
  constructor
  · intro h
    rintro ⟨pre, x, hm, hx⟩
    rw [hdrop pre x hm hx] at h
    have hlen := congrArg List.length (Option.some.inj h)
    have hb : b ≠ [] := by
      intro e; rw [e] at hm; simp at hm
    have : 0 < b.length := List.length_pos.mpr hb
    rw [List.length_dropLast] at hlen
    omega
  · intro h
    have hc : ¬ (2 ≤ (b.dropWhile (fun y => y = 0)).length ∧
        (b.dropWhile (fun y => y = 0)).getD ((b.dropWhile (fun y => y = 0)).length - 1) 0 = 0 ∧
        0x80 ≤ ((b.dropWhile (fun y => y = 0)).getD
          ((b.dropWhile (fun y => y = 0)).length - 2) 0).val) :=
      fun hc => h (hcond.mp hc)
    rw [hdec, trimLen, if_neg hc, List.take_length, ← hsplit]



theorem encodeCount_zeros (n : Nat) : encodeCount (List.replicate n 0) = n := by
  rw [encodeCount_eq, BN_bin2bn_zeros, leadingZeroBytes_zeros]
  simp

theorem encodeCount_zeros_append (k : Nat) (x : Fin 256) (rest : List (Fin 256))
    (hx : x ≠ 0) :
    encodeCount (List.replicate k 0 ++ x :: rest) = k + encodeCount (x :: rest) := by
  have h0 : leadingZeroBytes (x :: rest) = 0 := by
    simpa using leadingZeroBytes_zeros_append 0 x rest hx
  rw [encodeCount_eq, encodeCount_eq, leadingZeroBytes_zeros_append k x rest hx,
    BN_bin2bn_zeros_append, h0]
  omega
/-! ## Claims on `pubkey_to_address256` -/

set_option maxRecDepth 1000000 in
/-- C2 as stated fails on the code: for the public key `0x02` followed by 32
zero bytes, bytes [21:25] of the result are `15 bc 4c 5c`, the first four
bytes of one SHA-256 pass over bytes [0:21], while two passes give
`f4 ed 0d a0`. -/
theorem pubkey_checksum_not_double_sha256 :
    (pubkey_to_address256 OpenSSL.SHA256 OpenSSL.RIPEMD160 sampleKey).drop 21 =
        [0x15, 0xbc, 0x4c, 0x5c] ∧
      (OpenSSL.SHA256 (OpenSSL.SHA256
        ((pubkey_to_address256 OpenSSL.SHA256 OpenSSL.RIPEMD160 sampleKey).take 21))).take 4 =
        [0xf4, 0xed, 0x0d, 0xa0] ∧
      ((pubkey_to_address256 OpenSSL.SHA256 OpenSSL.RIPEMD160 sampleKey).drop 21).take 4 ≠
        (OpenSSL.SHA256 (OpenSSL.SHA256
          ((pubkey_to_address256 OpenSSL.SHA256 OpenSSL.RIPEMD160 sampleKey).take 21))).take 4 := by
  decide

/-- C2, amended: for every public key buffer, bytes [21:25] of
`pubkey_to_address256` are the first 4 bytes of SHA256 applied once to bytes
[0:21] of the result, the 21-byte versioned hash (given that SHA256 returns 32
bytes and RIPEMD160 returns 20 bytes). -/
theorem pubkey_checksum_single_sha256 (SHA256 RIPEMD160 : List (Fin 256) → List (Fin 256))
    (hS : ∀ x, (SHA256 x).length = 32) (hR : ∀ x, (RIPEMD160 x).length = 20)
    (pub_data : List (Fin 256)) :
    ((pubkey_to_address256 SHA256 RIPEMD160 pub_data).drop 21).take 4 =
        (SHA256 ((pubkey_to_address256 SHA256 RIPEMD160 pub_data).take 21)).take 4 ∧
      (pubkey_to_address256 SHA256 RIPEMD160 pub_data).take 21 =
        0 :: RIPEMD160 (SHA256 pub_data) := by
  have hlen : (0 :: RIPEMD160 (SHA256 pub_data)).length = 21 := by simp [hR]
  have htake : (pubkey_to_address256 SHA256 RIPEMD160 pub_data).take 21 =
      0 :: RIPEMD160 (SHA256 pub_data) := by
    rw [address256_eq SHA256 RIPEMD160 hS hR, List.take_append_of_le_length (by rw [hlen])]
    exact List.take_of_length_le (by rw [hlen])
  refine ⟨?_, htake⟩
  rw [htake, address256_eq SHA256 RIPEMD160 hS hR, List.drop_append_of_le_length (by rw [hlen]),
    List.drop_of_length_le (by rw [hlen]), List.nil_append, List.take_take]
  simp

/-- Witness of the amended C2 at the OpenSSL hash models and the public key
`0x02` followed by 32 zero bytes. -/
theorem pubkey_checksum_single_sha256_witness :
    ((pubkey_to_address256 OpenSSL.SHA256 OpenSSL.RIPEMD160 sampleKey).drop 21).take 4 =
      (OpenSSL.SHA256
        ((pubkey_to_address256 OpenSSL.SHA256 OpenSSL.RIPEMD160 sampleKey).take 21)).take 4 :=
  (pubkey_checksum_single_sha256 OpenSSL.SHA256 OpenSSL.RIPEMD160 SHA256_length
    RIPEMD160_length sampleKey).1

/-- C3: for every public key buffer, of any length, `pubkey_to_address256`
returns exactly 25 bytes, byte 0 is `0x00` and bytes [1:21] are
RIPEMD160(SHA256(p)), given that SHA256 returns 32 bytes and RIPEMD160 returns
20 bytes; the function is total, it has no failure case. -/
theorem pubkey_to_address256_layout (SHA256 RIPEMD160 : List (Fin 256) → List (Fin 256))
    (hS : ∀ x, (SHA256 x).length = 32) (hR : ∀ x, (RIPEMD160 x).length = 20)
    (pub_data : List (Fin 256)) :
    (pubkey_to_address256 SHA256 RIPEMD160 pub_data).length = 25 ∧
      (pubkey_to_address256 SHA256 RIPEMD160 pub_data)[0]? = some 0 ∧
      ((pubkey_to_address256 SHA256 RIPEMD160 pub_data).drop 1).take 20 =
        RIPEMD160 (SHA256 pub_data) := by
  rw [address256_eq SHA256 RIPEMD160 hS hR]
  refine ⟨by simp [hR, hS], by simp, ?_⟩
  simp only [List.cons_append, List.drop_succ_cons, List.drop_zero]
  rw [List.take_append_of_le_length (by rw [hR])]
  exact List.take_of_length_le (by rw [hR])

/-- Witness of C3 at the OpenSSL hash models and the public key `0x02` followed
by 32 zero bytes. -/
theorem pubkey_to_address256_layout_witness :
    (pubkey_to_address256 OpenSSL.SHA256 OpenSSL.RIPEMD160 sampleKey).length = 25 ∧
      (pubkey_to_address256 OpenSSL.SHA256 OpenSSL.RIPEMD160 sampleKey)[0]? = some 0 :=
  ⟨(pubkey_to_address256_layout OpenSSL.SHA256 OpenSSL.RIPEMD160 SHA256_length
      RIPEMD160_length sampleKey).1,
    (pubkey_to_address256_layout OpenSSL.SHA256 OpenSSL.RIPEMD160 SHA256_length
      RIPEMD160_length sampleKey).2.1⟩


/-! ## Claims on `base58_encode` -/

set_option maxRecDepth 100000 in
/-- C6: the digits are right wherever `base58_encode` has a result, but not
every buffer has one.  The 73 bytes `0xff` make the loops store 100 symbols,
so the terminator is stored at `str[100]`, outside `new char[100]`, while the
bytes `00 01 02` encode to `"15T"`.  Whenever the stores stay inside `str`, the
symbols after the first `k` (the number of leading zero bytes) are alphabet
symbols whose indices are the base-58 digits of the big-endian value, most
significant first: their positional value is that integer, the first of them
is not the zero digit, and there are none when the integer is 0. -/
theorem base58_encode_digits :
    (base58_encode (List.replicate 73 0xff) = none ∧
      base58_encode [0x00, 0x01, 0x02] = some ['1', '5', 'T']) ∧
    ∀ (buf : List (Fin 256)) (s : List Char), base58_encode buf = some s →
      leadingZeroBytes buf ≤ s.length ∧
      (∀ c ∈ s.drop (leadingZeroBytes buf), c ∈ BASE58_ALPHABET) ∧
      (s.drop (leadingZeroBytes buf)).map alphabetIndex =
        (Nat.digits 58 (BN_bin2bn buf)).reverse ∧
      positionalValue (s.drop (leadingZeroBytes buf)) = BN_bin2bn buf ∧
      (s.drop (leadingZeroBytes buf)).head? ≠ some (alphabetAt 0) ∧
      (BN_bin2bn buf = 0 → s.drop (leadingZeroBytes buf) = []) := by
  refine ⟨by decide, ?_⟩
  intro buf s h
  obtain ⟨rfl, _⟩ := base58_encode_some buf s h
  exact encodeSymbols_digits buf

set_option maxRecDepth 100000 in
/-- C8: the leading zero bytes are preserved wherever `base58_encode` has a
result, but not every `k` has one.  99 zero bytes followed by the byte 1
make the loops store 100 symbols and the terminator at `str[100]`, outside
`new char[100]`, while the byte 1 alone encodes to `"2"`.  Whenever the
encoding of `k` zero bytes followed by a buffer starting with a non-zero byte
has a result, so has that buffer, the result is `k` copies of `'1'` followed by
its encoding, which does not start with `'1'`, and the result has exactly `k`
leading `'1'`, the number of leading zero bytes of the input. -/
theorem base58_encode_leading_zeros :
    (base58_encode (List.replicate 99 0 ++ [1]) = none ∧
      base58_encode [1] = some ['2']) ∧
    ∀ (k : Nat) (x : Fin 256) (rest : List (Fin 256)) (s : List Char), x ≠ 0 →
      base58_encode (List.replicate k 0 ++ x :: rest) = some s →
      ∃ r : List Char, base58_encode (x :: rest) = some r ∧
        s = List.replicate k '1' ++ r ∧
        r.head? ≠ some '1' ∧
        leadingOnes s = k ∧
        leadingZeroBytes (List.replicate k 0 ++ x :: rest) = k := by
  refine ⟨by decide, ?_⟩
  intro k x rest s hx h
  obtain ⟨rfl, hc⟩ := base58_encode_some _ s h
  have hsym := encodeSymbols_leading_zeros k x rest hx
  have hcount := encodeCount_zeros_append k x rest hx
  refine ⟨encodeSymbols (x :: rest), base58_encode_of_lt _ (by omega), hsym.1, hsym.2.1,
    hsym.2.2.1, hsym.2.2.2⟩

set_option maxRecDepth 100000 in
/-- C14: `N` zero bytes encode to `N` symbols `'1'` only for `N <= 99`.  For
100 zero bytes the loop stores 100 symbols and the terminator at `str[100]`,
outside `new char[100]`.  For every `N`, `base58_encode` of `N` zero bytes is
the string of exactly `N` symbols `'1'` when `N < STR_CAPACITY` and has no
result otherwise; the empty buffer encodes to the empty string. -/
theorem base58_encode_zero_bytes :
    base58_encode (List.replicate 100 0) = none ∧
    (∀ N : Nat, base58_encode (List.replicate N 0) =
      if N < STR_CAPACITY then some (List.replicate N '1') else none) ∧
    base58_encode [] = some [] := by
  refine ⟨by decide, ?_, by decide⟩
  intro N
  rw [base58_encode_eq, encodeCount_zeros, (encodeSymbols_zero_bytes N).1]

/-- C17: for every buffer of at most 72 bytes, `base58_encode` has a result,
the number of symbols it writes, which is the length of the result, is at most
99, so the symbols and the terminator fit in the `STR_CAPACITY = 100`
characters of `str`; in particular this holds for a 25-byte address payload. -/
theorem base58_encode_fits (buf : List (Fin 256)) (h : buf.length ≤ 72) :
    (∃ s : List Char, base58_encode buf = some s ∧ s.length = encodeCount buf ∧
      s.length + 1 ≤ STR_CAPACITY) ∧
      encodeCount buf ≤ 99 ∧
      encodeCount buf + 1 ≤ STR_CAPACITY ∧
      (buf.length = 25 → encodeCount buf + 1 ≤ STR_CAPACITY) := by
  have hle := encodeCount_le buf h
  have hcap : STR_CAPACITY = 100 := rfl
  have hlen := encode_length buf
  refine ⟨⟨encodeSymbols buf, base58_encode_of_lt buf (by omega), hlen, by omega⟩, hle,
    by omega, fun _ => by omega⟩

/-- Witness of C17 at the buffer of 72 bytes `0xff`. -/
theorem base58_encode_fits_witness :
    (List.replicate 72 (0xff : Fin 256)).length ≤ 72 ∧
      encodeCount (List.replicate 72 0xff) + 1 ≤ STR_CAPACITY :=
  ⟨by decide, (base58_encode_fits (List.replicate 72 0xff) (by decide)).2.2.1⟩

/-! ## Claims on `base58_decode` and on the round trip -/

/-- C1: the round trip does not hold on the code.  For the buffer `[0x80, 0x00]`
the encoding is `"Ajy"` and decoding it returns the one byte `[0x80]`: the
statement that trims a "sign byte" removes the final zero byte of the
big-endian bytes written by `BN_bn2bin`. -/
theorem base58_roundtrip_drops_byte :
    base58_encode [0x80, 0x00] = some ['A', 'j', 'y'] ∧
      (base58_encode [0x80, 0x00]).bind base58_decode = some [0x80] ∧
      (base58_encode [0x80, 0x00]).bind base58_decode ≠ some [0x80, 0x00] := by
  decide

/-- C4 as stated fails on the code: the string `'1'`, NUL, `'O'` contains `'O'`
and is not of the accepted form, yet `base58_decode` returns the buffer `[0]`
read before the NUL. -/
theorem base58_decode_stops_at_NUL :
    base58_decode ['1', NUL, 'O'] = some [0] ∧ 'O' ∈ ['1', NUL, 'O'] ∧
      ¬ Base58Form ['1', NUL, 'O'] := by
  refine ⟨by decide, by decide, ?_⟩
  rintro ⟨a, w, he, ha, hw⟩
  have hd : List.dropWhile isspace ['1', NUL, 'O'] = ['1', NUL, 'O'] := by decide
  rw [hd] at he
  have hmem : 'O' ∈ a ++ w := by rw [← he]; decide
  rcases List.mem_append.mp hmem with h | h
  · exact absurd (ha _ h) (by decide)
  · exact absurd (hw _ h) (by decide)

/-- C4, amended: `base58_decode` fails if and only if the input up to its first
NUL character (the whole input when it has none) is not, after its leading
whitespace, zero or more alphabet symbols followed by zero or more whitespace
characters.  In particular it fails, returning no buffer, when that part of the
input contains a character that is neither an alphabet symbol nor whitespace,
such as `'0'`, `'O'`, `'I'` or `'l'`, or a non-whitespace character right
after a whitespace character that follows the leading whitespace. -/
theorem base58_decode_fails_iff (s : List Char) :
    (base58_decode s = none ↔ ¬ Base58Form (cString s)) ∧
    (NUL ∉ s → cString s = s) ∧
    (∀ c ∈ cString s, c ∉ BASE58_ALPHABET → isspace c = false → base58_decode s = none) ∧
    (∀ c ∈ cString s, c = '0' ∨ c = 'O' ∨ c = 'I' ∨ c = 'l' → base58_decode s = none) ∧
    (∀ (u v : List Char) (b c : Char),
      (cString s).dropWhile isspace = u ++ b :: c :: v → isspace b = true →
        isspace c = false → base58_decode s = none) := by
  have hiff := base58_decode_none_iff_form s
  have hbad : ∀ c ∈ cString s, c ∉ BASE58_ALPHABET → isspace c = false →
      base58_decode s = none := by
    intro c hc hna hns
    rw [hiff]
    rintro ⟨a, w, he, ha, hw⟩
    have hsplit : cString s =
        (cString s).takeWhile isspace ++ (cString s).dropWhile isspace :=
      (List.takeWhile_append_dropWhile _ _).symm
    rw [hsplit, he] at hc
    rcases List.mem_append.mp hc with h | h
    · have := List.mem_takeWhile_imp h
      rw [hns] at this
      exact absurd this (by decide)
    · rcases List.mem_append.mp h with h | h
      · exact hna (ha c h)
      · have := hw c h
        rw [hns] at this
        exact absurd this (by decide)
  refine ⟨hiff, ?_, hbad, ?_, ?_⟩
  · intro hn
    unfold cString
    rw [List.takeWhile_eq_self_iff]
    intro c hc
    have : c ≠ NUL := fun e => hn (e ▸ hc)
    simpa using this
  · intro c hc h4
    rcases h4 with rfl | rfl | rfl | rfl
    · exact hbad _ hc (by decide) (by decide)
    · exact hbad _ hc (by decide) (by decide)
    · exact hbad _ hc (by decide) (by decide)
    · exact hbad _ hc (by decide) (by decide)
  · intro u v b c he hb hc
    rw [hiff]
    rintro ⟨a, w, hf, ha, hw⟩
    rw [he] at hf
    have hcw : c ∈ w := by
      rcases List.append_eq_append_iff.mp hf with ⟨m, hm1, hm2⟩ | ⟨m, hm1, hm2⟩
      · -- a = u ++ m, b :: c :: v = m ++ w
        cases m with
        | nil =>
          simp only [List.nil_append] at hm2
          rw [← hm2]; simp
        | cons y m2 =>
          simp only [List.cons_append, List.cons.injEq] at hm2
          have hbm : b ∈ a := by rw [hm1, hm2.1]; simp
          have := alphabet_not_space b (ha b hbm)
          rw [hb] at this
          exact absurd this (by decide)
      · -- u = a ++ m, w = m ++ b :: c :: v
        rw [hm2]; simp
    have := hw c hcw
    rw [hc] at this
    exact absurd this (by decide)

/-- C5: the result shape does not hold on the code.  The string `"Ajy"` has no
leading `'1'` and folds to 32768, whose minimal big-endian bytes are
`[0x80, 0x00]`; `base58_decode` returns `[0x80]`. -/
theorem base58_decode_shape_drops_byte :
    (∀ c ∈ ['A', 'j', 'y'], c ∈ BASE58_ALPHABET) ∧
      leadingOnes ['A', 'j', 'y'] = 0 ∧
      foldValue ['A', 'j', 'y'] = 32768 ∧
      BN_bn2bin 32768 = [0x80, 0x00] ∧
      base58_decode ['A', 'j', 'y'] = some [0x80] := by
  decide

/-- C12: for every string `s` of alphabet symbols and all whitespace-only
strings `w1` and `w2`, `base58_decode (w1 ++ s ++ w2)` succeeds and equals
`base58_decode s`; the result starts with as many zero bytes as `s` has
leading `'1'` symbols. -/
theorem base58_decode_ignores_whitespace (w1 s w2 : List Char)
    (hs : ∀ c ∈ s, c ∈ BASE58_ALPHABET) (h1 : ∀ c ∈ w1, isspace c = true)
    (h2 : ∀ c ∈ w2, isspace c = true) :
    base58_decode (w1 ++ s ++ w2) = base58_decode s ∧
      ∃ tail : List (Fin 256),
        base58_decode (w1 ++ s ++ w2) = some (List.replicate (leadingOnes s) 0 ++ tail) := by
  rw [base58_decode_spaced w1 s w2 hs h1 h2, base58_decode_alphabet s hs]
  exact ⟨rfl, _, rfl⟩

/-- Witness of C12 at the string `"115T"` between a space and a line end. -/
theorem base58_decode_ignores_whitespace_witness :
    base58_decode ([' ', ' '] ++ ['1', '1', '5', 'T'] ++ [' ', Char.ofNat 10]) =
      base58_decode ['1', '1', '5', 'T'] :=
  (base58_decode_ignores_whitespace [' ', ' '] ['1', '1', '5', 'T'] [' ', Char.ofNat 10]
    (by decide) (by decide) (by decide)).1

/-- C15: for every `N`, `base58_decode` of the string of `N` symbols `'1'`
succeeds and returns exactly `N` zero bytes; in particular the empty string
decodes to the empty buffer. -/
theorem base58_decode_zero_symbols (N : Nat) :
    base58_decode (List.replicate N '1') = some (List.replicate N 0) ∧
      base58_decode [] = some [] := by
  have hs : ∀ c ∈ List.replicate N '1', c ∈ BASE58_ALPHABET := by
    intro c hc
    rw [(List.mem_replicate.mp hc).2]
    decide
  have hk : leadingOnes (List.replicate N '1') = N := by
    have := leadingOnes_replicate_append N [] (by simp)
    simpa using this
  have hv : foldValue (List.replicate N '1') = 0 := foldl_ones N
  have h0 : (BN_bn2bin 0).take (trimLen (BN_bn2bin 0) (BN_num_bytes 0)) = [] := by decide
  constructor
  · rw [base58_decode_alphabet _ hs, hk, hv, h0, List.append_nil]
  · decide

set_option maxRecDepth 100000 in
/-- C18: the domain of the round trip is as stated wherever `base58_encode` has
a result, but it has none for every buffer: the 73 bytes `0xff` make it store
the terminator at `str[100]`, outside `new char[100]`, before anything is
decoded.  Whenever `base58_encode b` has the result `s`, with `m` the buffer
`b` without its leading zero bytes, `base58_decode s` is `b` if and only if `m`
does not end in a byte `>= 0x80` followed by the byte `0x00`; when `m` does end
so, the result is `b` without its final byte. -/
theorem base58_roundtrip_domain :
    base58_encode (List.replicate 73 0xff) = none ∧
    ∀ (b : List (Fin 256)) (s : List Char), base58_encode b = some s →
      (base58_decode s = some b ↔
        ¬ ∃ (pre : List (Fin 256)) (x : Fin 256),
          b.dropWhile (fun y => y = 0) = pre ++ [x, 0] ∧ 0x80 ≤ x.val) ∧
      (∀ (pre : List (Fin 256)) (x : Fin 256),
        b.dropWhile (fun y => y = 0) = pre ++ [x, 0] → 0x80 ≤ x.val →
          base58_decode s = some b.dropLast) := by
  refine ⟨by decide, ?_⟩
  intro b s h
  obtain ⟨rfl, _⟩ := base58_encode_some b s h
  exact encodeSymbols_roundtrip b

/-! ## Claims on `FormatHashBlocks` and `sha256_midstate` -/

set_option maxRecDepth 100000 in
/-- C9: the midstate depends only on the first block wherever `sha256_midstate`
has a result, but not every input of at least 64 bytes has one.  A 120-byte
input and an 80-byte input with the same first 64 bytes differ: for 120 bytes
the padding covers 192 bytes and `malloc` reserved 184, so stores fall outside
the allocation, while the 80-byte input has a result.  For inputs
`x` and `y` of at least 64 bytes that agree on their first 64 bytes and whose
lengths leave the padding inside the allocation (`length % 64 < 56`, no
`unsigned int` wrap), the results are equal and are the bytes of `c.h` after
one `SHA256_Transform` of the context left by `SHA256_Init` with those 64
bytes. -/
theorem sha256_midstate_first_block_only :
    (sha256_midstate OpenSSL.SHA256_Init OpenSSL.SHA256_Transform OpenSSL.h_bytes
        (fun _ => 0) (List.replicate 120 7) = none ∧
      (sha256_midstate OpenSSL.SHA256_Init OpenSSL.SHA256_Transform OpenSSL.h_bytes
        (fun _ => 0) (List.replicate 80 7)).isSome = true ∧
      (List.replicate 120 (7 : Fin 256)).take 64 = (List.replicate 80 7).take 64) ∧
    ∀ (Ctx : Type) (SHA256_Init : Ctx) (SHA256_Transform : Ctx → List (Fin 256) → Ctx)
      (h_bytes : Ctx → List (Fin 256)) (heapx heapy : Nat → Fin 256) (x y : List (Fin 256)),
      64 ≤ x.length → 64 ≤ y.length → x.take 64 = y.take 64 →
      x.length + 72 < 2 ^ 32 → y.length + 72 < 2 ^ 32 →
      x.length % 64 < 56 → y.length % 64 < 56 →
      sha256_midstate SHA256_Init SHA256_Transform h_bytes heapx x =
          sha256_midstate SHA256_Init SHA256_Transform h_bytes heapy y ∧
        sha256_midstate SHA256_Init SHA256_Transform h_bytes heapx x =
          some ((h_bytes (SHA256_Transform SHA256_Init (x.take 64))).take 32) := by
  refine ⟨by decide, ?_⟩
  intro Ctx SHA256_Init SHA256_Transform h_bytes heapx heapy x y hx hy hxy hxw hyw hxm hym
  have hux : u32 x.length = x.length := Nat.mod_eq_of_lt (by omega)
  have huy : u32 y.length = y.length := Nat.mod_eq_of_lt (by omega)
  have bx := midstate_first_block heapx x hx hxw
  have by_ := midstate_first_block heapy y hy hyw
  rw [hux] at bx
  rw [huy] at by_
  have ex : sha256_midstate SHA256_Init SHA256_Transform h_bytes heapx x =
      some ((h_bytes (SHA256_Transform SHA256_Init (x.take 64))).take 32) := by
    rw [sha256_midstate_eq SHA256_Init SHA256_Transform h_bytes heapx x hxw, if_pos hxm, bx]
  have ey : sha256_midstate SHA256_Init SHA256_Transform h_bytes heapy y =
      some ((h_bytes (SHA256_Transform SHA256_Init (y.take 64))).take 32) := by
    rw [sha256_midstate_eq SHA256_Init SHA256_Transform h_bytes heapy y hyw, if_pos hym, by_]
  exact ⟨by rw [ex, ey, hxy], ex⟩

/-- C10: for every length `len < 2 ^ 29`, `FormatHashBlocks` returns
`ceil((len + 9) / 64)` blocks, and the padded buffer of `64 * blocks` bytes
keeps the `len` input bytes, has `0x80` at index `len`, zero at every index
strictly between `len` and `64 * blocks - 4`, and the 32-bit big-endian
encoding of `8 * len` in its last four bytes. -/
theorem FormatHashBlocks_layout (pbuffer : Nat → Fin 256) (len : Nat) (hlen : len < 2 ^ 29) :
    (FormatHashBlocks pbuffer len).1 = (len + 9 + 63) / 64 ∧
    (∀ i, i < len → (FormatHashBlocks pbuffer len).2 i = pbuffer i) ∧
    (FormatHashBlocks pbuffer len).2 len = 0x80 ∧
    (∀ i, len < i → i < 64 * (FormatHashBlocks pbuffer len).1 - 4 →
      (FormatHashBlocks pbuffer len).2 i = 0) ∧
    [(FormatHashBlocks pbuffer len).2 (64 * (FormatHashBlocks pbuffer len).1 - 4),
      (FormatHashBlocks pbuffer len).2 (64 * (FormatHashBlocks pbuffer len).1 - 3),
      (FormatHashBlocks pbuffer len).2 (64 * (FormatHashBlocks pbuffer len).1 - 2),
      (FormatHashBlocks pbuffer len).2 (64 * (FormatHashBlocks pbuffer len).1 - 1)] =
      [toByte (8 * len / 2 ^ 24), toByte (8 * len / 2 ^ 16), toByte (8 * len / 2 ^ 8),
        toByte (8 * len)] ∧
    BN_bin2bn
      [(FormatHashBlocks pbuffer len).2 (64 * (FormatHashBlocks pbuffer len).1 - 4),
        (FormatHashBlocks pbuffer len).2 (64 * (FormatHashBlocks pbuffer len).1 - 3),
        (FormatHashBlocks pbuffer len).2 (64 * (FormatHashBlocks pbuffer len).1 - 2),
        (FormatHashBlocks pbuffer len).2 (64 * (FormatHashBlocks pbuffer len).1 - 1)] =
      8 * len := by
  have hw : len + 72 < 2 ^ 32 := by omega
  have hB : len + 9 ≤ 64 * (1 + (len + 8) / 64) := by omega
  have hbits : u32 (len * 8) = 8 * len := by
    unfold u32
    rw [Nat.mod_eq_of_lt (by omega)]; ring
  have hbyte : ∀ k, toByte (((8 * len) >>> k) &&& 0xff) = toByte (8 * len / 2 ^ k) := by
    intro k
    rw [Nat.shiftRight_eq_div_pow]
    apply Fin.ext
    have := Nat.and_pow_two_sub_one_eq_mod (8 * len / 2 ^ k) 8
    simp only [toByte]
    norm_num at this ⊢
    rw [this, Nat.mod_mod]
  have e4 : (FormatHashBlocks pbuffer len).2 (64 * (1 + (len + 8) / 64) - 4) =
      toByte (8 * len / 2 ^ 24) := by
    rw [FormatHashBlocks_snd pbuffer len hw, if_pos rfl, hbits, hbyte]
  have e3 : (FormatHashBlocks pbuffer len).2 (64 * (1 + (len + 8) / 64) - 3) =
      toByte (8 * len / 2 ^ 16) := by
    rw [FormatHashBlocks_snd pbuffer len hw, if_neg (by omega), if_pos rfl, hbits, hbyte]
  have e2 : (FormatHashBlocks pbuffer len).2 (64 * (1 + (len + 8) / 64) - 2) =
      toByte (8 * len / 2 ^ 8) := by
    rw [FormatHashBlocks_snd pbuffer len hw, if_neg (by omega), if_neg (by omega), if_pos rfl,
      hbits, hbyte]
  have e1 : (FormatHashBlocks pbuffer len).2 (64 * (1 + (len + 8) / 64) - 1) =
      toByte (8 * len) := by
    rw [FormatHashBlocks_snd pbuffer len hw, if_neg (by omega), if_neg (by omega),
      if_neg (by omega), if_pos rfl, hbits, hbyte]
    simp
  rw [FormatHashBlocks_fst pbuffer len hw]
  refine ⟨by omega, fun i hi => FormatHashBlocks_below pbuffer len hw i hi, ?_, ?_, ?_, ?_⟩
  · have n4 : ¬ len = 64 * (1 + (len + 8) / 64) - 4 := by omega
    have n3 : ¬ len = 64 * (1 + (len + 8) / 64) - 3 := by omega
    have n2 : ¬ len = 64 * (1 + (len + 8) / 64) - 2 := by omega
    have n1 : ¬ len = 64 * (1 + (len + 8) / 64) - 1 := by omega
    rw [FormatHashBlocks_snd pbuffer len hw, if_neg n4, if_neg n3, if_neg n2, if_neg n1,
      if_pos rfl]
  · intro i h1 h2
    have n4 : ¬ i = 64 * (1 + (len + 8) / 64) - 4 := by omega
    have n3 : ¬ i = 64 * (1 + (len + 8) / 64) - 3 := by omega
    have n2 : ¬ i = 64 * (1 + (len + 8) / 64) - 2 := by omega
    have n1 : ¬ i = 64 * (1 + (len + 8) / 64) - 1 := by omega
    have n0 : ¬ i = len := by omega
    have pz : len ≤ i ∧ i < 64 * (1 + (len + 8) / 64) := by omega
    rw [FormatHashBlocks_snd pbuffer len hw, if_neg n4, if_neg n3, if_neg n2, if_neg n1,
      if_neg n0, if_pos pz]
  · rw [e4, e3, e2, e1]
  · rw [e4, e3, e2, e1]
    simp only [BN_bin2bn, List.foldl_cons, List.foldl_nil, toByte]
    norm_num
    omega

/-- Witness of C10 at an 80-byte input: two blocks, the last four bytes
`00 00 02 80` encode 640 bits. -/
theorem FormatHashBlocks_layout_witness :
    80 < 2 ^ 29 ∧ (FormatHashBlocks (fun _ => 7) 80).1 = (80 + 9 + 63) / 64 ∧
      (FormatHashBlocks (fun _ => 7) 80).2 80 = 0x80 :=
  ⟨by decide, (FormatHashBlocks_layout (fun _ => 7) 80 (by decide)).1,
    (FormatHashBlocks_layout (fun _ => 7) 80 (by decide)).2.2.1⟩

/-- C16: the padding does not stay inside the reserved buffer for every
length.  For a 56-byte input `FormatHashBlocks` returns 2 blocks and pads
128 bytes, `sha256_midstate` reserves 56 + 64 = 120, and the bit length is
stored at indices 124-127 (index 126 receives `0x01`, index 127 `0xc0`).
Without `unsigned int` wrap the padded size is within the reserved size exactly
when `len % 64 < 56`. -/
theorem midstate_padding_overruns :
    ((FormatHashBlocks (fun _ => 0) 56).1 = 2 ∧
      midstateReserved 56 = 120 ∧
      ¬ 64 * (FormatHashBlocks (fun _ => 0) 56).1 ≤ midstateReserved 56 ∧
      (FormatHashBlocks (fun _ => 0) 56).2 126 = 0x01 ∧
      (FormatHashBlocks (fun _ => 0) 56).2 127 = 0xc0) ∧
    ∀ (pbuffer : Nat → Fin 256) (len : Nat), len + 72 < 2 ^ 32 →
      (64 * (FormatHashBlocks pbuffer len).1 ≤ midstateReserved len ↔ len % 64 < 56) :=
  ⟨by decide, blocks_fit_iff⟩

end Bitcoinjs
